import Mathlib

/- Shallow embedding of the shopkeeper repository (src/domain.rs and src/ui.rs;
   src/main.rs is an earlier revision of the same code).

   Conventions of the embedding:
   - u32 values are Nat, with an explicit `% 4294967296` exactly where the Rust
     code can wrap (the `new_qty as u32` truncating cast in adjust_stock, the
     `+= 1` on the u32 id counters, the `+=` on u32 map entries); u64
     accumulation in commit_order wraps with `% 18446744073709551616`;
     i32/i64 arithmetic is Int (the i64 sum in adjust_stock is exact, as in the
     source).  Wrapping (release-mode) semantics is used for the checked u32/i32
     additions; every counterexample below is chosen so that the step in
     question also occurs, with the same result, under debug (panicking)
     semantics unless noted in a comment.
   - The HashMap<u32, (Item, u32)> is an association list with unique keys
     (`Store.WF`); HashMap iteration order is unspecified in Rust, and every
     place the source iterates a map it either sorts the result
     (inventory_ids_sorted, the finish branch of build_order) or performs
     per-key commuting updates (the quit rollback), so a fixed list order is
     observationally adequate.
   - Fallible operations return Except/Option; a Rust panic (`expect`) is
     Option.none.
   - The interactive loop of build_order is driven by a script of already
     parsed commands: `Cmd.sel row qty` is a numeric row entry followed by the
     quantity entry (the source checks the row range before reading the
     quantity, so for an out-of-range row the qty field is simply unused),
     `Cmd.other` is any non-numeric non-command line, and an exhausted script
     leaves the session pending. -/

def U32M : Nat := 4294967296

def U64M : Nat := 18446744073709551616

def I32H : Nat := 2147483648

structure Item where
  name : String
  id : Nat
  cost : Nat
  weight : Nat
deriving DecidableEq

structure OrderLine where
  item_id : Nat
  qty : Nat
deriving DecidableEq

structure Order where
  id : Nat
  cost : Nat
  ship_weight : Nat
  items : List OrderLine
deriving DecidableEq

abbrev InvMap := List (Nat × Item × Nat)

structure Store where
  inventory : InvMap
  orders : List Order
  next_item_id : Nat
  next_order_id : Nat
deriving DecidableEq

def invLookup : InvMap → Nat → Option (Item × Nat)
  | [], _ => none
  | e :: rest, id => if e.1 = id then some e.2 else invLookup rest id

def invInsert : InvMap → Nat → Item × Nat → InvMap
  | [], id, v => [(id, v)]
  | e :: rest, id, v => if e.1 = id then (id, v) :: rest else e :: invInsert rest id v

def invSetQty : InvMap → Nat → Nat → InvMap
  | [], _, _ => []
  | e :: rest, id, q' => if e.1 = id then (e.1, e.2.1, q') :: rest else e :: invSetQty rest id q'

def invKeys (inv : InvMap) : List Nat := inv.map (fun e => e.1)

def invShape (inv : InvMap) : List (Nat × Item) := inv.map (fun e => (e.1, e.2.1))

/-- Insertion sort on Nat keys; `ids.sort_unstable()` in the source.  On a
nodup list of Nat the sorted permutation is unique, so any correct sort is the
same function as the source's. -/
def insNat (x : Nat) : List Nat → List Nat
  | [] => [x]
  | y :: ys => if x ≤ y then x :: y :: ys else y :: insNat x ys

def sortNat : List Nat → List Nat
  | [] => []
  | x :: xs => insNat x (sortNat xs)

def Store.new : Store := ⟨[], [], 1, 1⟩

def Store.inventory_get (s : Store) (item_id : Nat) : Option (Item × Nat) :=
  invLookup s.inventory item_id

def Store.inventory_ids_sorted (s : Store) : List Nat :=
  sortNat (invKeys s.inventory)

def Store.stock (s : Store) (item : Item) (quantity : Nat) : Store :=
  { s with inventory := invInsert s.inventory item.id (item, quantity) }

def Store.stock_new (s : Store) (name : String) (cost weight quantity : Nat) : Nat × Store :=
  let id := s.next_item_id
  let item : Item := ⟨name, id, cost, weight⟩
  let s1 := s.stock item quantity
  (id, { s1 with next_item_id := (s1.next_item_id + 1) % U32M })

def Store.adjust_stock (s : Store) (item_id : Nat) (qty_change : Int) :
    Except String Nat × Store :=
  match invLookup s.inventory item_id with
  | none => (Except.error ("Unknown id: " ++ toString item_id), s)
  | some (_, qty) =>
    let new_qty : Int := (qty : Int) + qty_change
    if new_qty < 0 then
      (Except.error ("Not enough stock (ID: " ++ toString item_id ++ ")"), s)
    else
      let q' := new_qty.toNat % U32M
      (Except.ok q', { s with inventory := invSetQty s.inventory item_id q' })

def Store.push_order (s : Store) (o : Order) : Store :=
  { s with orders := s.orders ++ [o] }

/-- The accumulation loop of commit_order: u64 cost/weight accumulators, a
panic (none) on the first missing line id. -/
def commitAggAux (s : Store) (cost grams : Nat) : List OrderLine → Option (Nat × Nat)
  | [] => some (cost, grams)
  | l :: rest =>
    match s.inventory_get l.item_id with
    | none => none
    | some (item, _) =>
      commitAggAux s ((cost + item.cost * l.qty) % U64M) ((grams + item.weight * l.qty) % U64M) rest

def Store.commit_order (s : Store) (lines : List OrderLine) : Option (Order × Store) :=
  match commitAggAux s 0 0 lines with
  | none => none
  | some (c, g) =>
    if c < U32M then
      if g < U32M then
        some ({ id := s.next_order_id, cost := c, ship_weight := g, items := lines },
              { s with next_order_id := (s.next_order_id + 1) % U32M })
      else none
    else none

/-- The bit cast `u32 as i32`. -/
def i32_of_u32 (n : Nat) : Int :=
  if n % U32M < I32H then ((n % U32M : Nat) : Int) else ((n % U32M : Nat) : Int) - (U32M : Int)

/-- i32 negation with release-mode wrapping at i32::MIN (debug mode panics
there; all proofs below that go through `i32neg` on the minimum also note the
debug behaviour). -/
def i32neg (x : Int) : Int := if x = -((I32H : Nat) : Int) then x else -x

inductive Cmd
  | finish
  | quit
  | sel (row : Nat) (qty : Nat)
  | other
deriving DecidableEq

inductive BuildResult
  | finalized (lines : List OrderLine)
  | cancelled
  | pending
deriving DecidableEq

def oqLookup : List (Nat × Nat) → Nat → Option Nat
  | [], _ => none
  | e :: rest, id => if e.1 = id then some e.2 else oqLookup rest id

def oqv (oq : List (Nat × Nat)) (id : Nat) : Nat := (oqLookup oq id).getD 0

/-- `*order_qty.entry(item_id).or_insert(0) += qty` (u32 addition wraps). -/
def oqAdd : List (Nat × Nat) → Nat → Nat → List (Nat × Nat)
  | [], id, q => [(id, (0 + q) % U32M)]
  | e :: rest, id, q => if e.1 = id then (e.1, (e.2 + q) % U32M) :: rest else e :: oqAdd rest id q

def oqKeys (oq : List (Nat × Nat)) : List Nat := oq.map (fun e => e.1)

/-- The quit branch: `for (item_id, qty) in order_qty.iter() { let _ =
store.adjust_stock(*item_id, *qty as i32); }`. -/
def rollback (s : Store) : List (Nat × Nat) → Store
  | [] => s
  | e :: rest => rollback (s.adjust_stock e.1 (i32_of_u32 e.2)).2 rest

/-- Insertion sort of order lines by item id; `lines.sort_by_key(|l| l.item_id)`. -/
def insLine (x : OrderLine) : List OrderLine → List OrderLine
  | [] => [x]
  | y :: ys => if x.item_id ≤ y.item_id then x :: y :: ys else y :: insLine x ys

def sortLines : List OrderLine → List OrderLine
  | [] => []
  | x :: xs => insLine x (sortLines xs)

/-- The build_order loop of src/ui.rs, instrumented with a ghost trace (third
component) listing the successful selections (item id, entered qty) in order;
the Rust function is the first two components. -/
def buildOrderT (s : Store) (oq : List (Nat × Nat)) :
    List Cmd → BuildResult × Store × List (Nat × Nat)
  | [] => (BuildResult.pending, s, [])
  | Cmd.finish :: rest =>
    if oq.isEmpty then buildOrderT s oq rest
    else (BuildResult.finalized (sortLines (oq.map (fun e => ⟨e.1, e.2⟩))), s, [])
  | Cmd.quit :: _ => (BuildResult.cancelled, rollback s oq, [])
  | Cmd.other :: rest => buildOrderT s oq rest
  | Cmd.sel row qty :: rest =>
    let ids := s.inventory_ids_sorted
    if h : row < ids.length then
      let id := ids.get ⟨row, h⟩
      let r := s.adjust_stock id (i32neg (i32_of_u32 qty))
      match r.1 with
      | Except.ok _ =>
        let out := buildOrderT r.2 (oqAdd oq id qty) rest
        (out.1, out.2.1, (id, qty) :: out.2.2)
      | Except.error _ => buildOrderT r.2 oq rest
    else buildOrderT s oq rest

def Store.build_order (s : Store) (script : List Cmd) : BuildResult × Store :=
  ((buildOrderT s [] script).1, (buildOrderT s [] script).2.1)

/-- Display for Grams (src/domain.rs).  The source computes the pound and ounce
counts in f64 as ceil(g / 453.59237) and ceil(g / 28.349523125); the embedding
uses the exact rational ceilings ⌈g*100000/45359237⌉ and
⌈g*10^9/28349523125⌉.  These agree with the f64 computation for every u32 g:
a nonintegral exact quotient is at least 100000/45359237 > 2*10^-8 (resp.
1600000/45359237) away from the nearest integer while the accumulated f64
rounding error near a quotient q ≤ 2^32/28.3 is below 10^-8, and at an exactly
integral quotient q = g*100000/45359237 ≤ 947000 the relative perturbation from
rounding the literal and the division is under a half ulp of q, so the f64
quotient rounds to exactly q. -/
def gramsDisplay (grams : Nat) : String :=
  if 908 ≤ grams then
    toString ((grams * 100000 + 45359236) / 45359237) ++ "lb"
  else if 57 ≤ grams then
    toString ((grams * 1000000000 + 28349523124) / 28349523125) ++ "oz"
  else
    toString grams ++ "g"

def applyAdjusts (s : Store) : List (Nat × Int) → Store
  | [] => s
  | e :: rest => applyAdjusts (s.adjust_stock e.1 e.2).2 rest

def exOk : Except String Nat → Bool
  | Except.ok _ => true
  | Except.error _ => false

def lineCost (s : Store) (l : OrderLine) : Nat :=
  match s.inventory_get l.item_id with
  | some (item, _) => item.cost * l.qty
  | none => 0

def lineWeight (s : Store) (l : OrderLine) : Nat :=
  match s.inventory_get l.item_id with
  | some (item, _) => item.weight * l.qty
  | none => 0

/-- Exact (unwrapped) aggregate cost of a line set. -/
def costSum (s : Store) (lines : List OrderLine) : Nat := (lines.map (lineCost s)).sum

/-- Exact (unwrapped) aggregate weight of a line set. -/
def weightSum (s : Store) (lines : List OrderLine) : Nat := (lines.map (lineWeight s)).sum

/-- Ids of a sequence of successive commits; a panicking commit aborts the
process, producing no further ids. -/
def commitRun (s : Store) : List (List OrderLine) → List Nat
  | [] => []
  | ls :: rest =>
    match s.commit_order ls with
    | some (o, s') => o.id :: commitRun s' rest
    | none => []

/-- The store's mutating operations, for interleaving stock_new with the rest
of the store API. -/
inductive Op
  | opStockNew (name : String) (cost weight qty : Nat)
  | opStock (item : Item) (qty : Nat)
  | opAdjust (id : Nat) (delta : Int)
  | opCommit (lines : List OrderLine)
  | opPush (o : Order)

/-- Run a sequence of store operations, collecting the ids returned by the
stock_new calls; a panicking commit aborts the run. -/
def runTrace (s : Store) : List Op → List Nat × Store
  | [] => ([], s)
  | Op.opStockNew n c w q :: rest =>
    let r := s.stock_new n c w q
    let out := runTrace r.2 rest
    (r.1 :: out.1, out.2)
  | Op.opStock item q :: rest => runTrace (s.stock item q) rest
  | Op.opAdjust id d :: rest => runTrace (s.adjust_stock id d).2 rest
  | Op.opCommit lines :: rest =>
    match s.commit_order lines with
    | some (_, s') => runTrace s' rest
    | none => ([], s)
  | Op.opPush o :: rest => runTrace (s.push_order o) rest

/-- n consecutive stock_new calls (fixed arguments), returning the ids. -/
def stockNewN (s : Store) : Nat → List Nat
  | 0 => []
  | n + 1 =>
    let r := s.stock_new "item" 0 0 0
    r.1 :: stockNewN r.2 n

/-- Total quantity entered for item `id` by the sel commands of a script, rows
resolved against the fixed sorted id list `ids`. -/
def selTotal (ids : List Nat) : List Cmd → Nat → Nat
  | [], _ => 0
  | Cmd.sel row q :: rest, id =>
    (if h : row < ids.length then (if ids.get ⟨row, h⟩ = id then q else 0) else 0) +
      selTotal ids rest id
  | _ :: rest, id => selTotal ids rest id

/-- The script contains no finish and no quit command. -/
def noTerm (script : List Cmd) : Bool :=
  script.all fun c =>
    match c with
    | Cmd.finish => false
    | Cmd.quit => false
    | _ => true

/-- Well-formedness of a store as reached by the program: association-list
keys are unique (HashMap keys are) and every on-hand quantity is a u32 value. -/
def Store.WF (s : Store) : Prop :=
  (invKeys s.inventory).Nodup ∧ ∀ e ∈ s.inventory, e.2.2 < U32M

/-- Fold of oqAdd over a selection trace. -/
def applyTr (oq : List (Nat × Nat)) : List (Nat × Nat) → List (Nat × Nat)
  | [] => oq
  | e :: rest => applyTr (oqAdd oq e.1 e.2) rest


/-- Concrete store used by witnesses: one item, id 1, quantity 5. -/
def cItem1 : Item := ⟨"washer", 1, 8, 2⟩

def cS1 : Store := ⟨[(1, cItem1, 5)], [], 2, 1⟩

/-- Store holding an item at the maximum u32 quantity. -/
def cBig : Store := ⟨[(7, ⟨"big", 7, 1, 1⟩, 4294967295)], [], 8, 1⟩

/-- Store at the maximum order-id counter value. -/
def cS7 : Store := ⟨[(1, cItem1, 5)], [], 2, 4294967295⟩

/-- The order and store produced by committing [(item 1, qty 2)] against cS1. -/
def cO1 : Order := ⟨1, 16, 4, [⟨1, 2⟩]⟩

def cS1c : Store := ⟨[(1, cItem1, 5)], [], 2, 2⟩

/-- Store with a single item costing 2^31 cents. -/
def cWrap : Store := ⟨[(1, ⟨"x", 1, 2147483648, 0⟩, 0)], [], 2, 1⟩

def cWrapLines : List OrderLine :=
  [⟨1, 2147483648⟩, ⟨1, 2147483648⟩, ⟨1, 2147483648⟩, ⟨1, 2147483648⟩]

/-- Two-item store whose association list is deliberately not in key order. -/
def cS2 : Store := ⟨[(3, ⟨"b", 3, 10, 10⟩, 1), (1, cItem1, 5)], [], 4, 1⟩

def oqBounded (oq : List (Nat × Nat)) : Prop := ∀ p ∈ oq, p.2 < U32M

/-- Store holding item 1 at the maximum u32 quantity. -/
def cS3 : Store := ⟨[(1, cItem1, 4294967295)], [], 2, 1⟩

theorem invLookup_invSetQty_self (inv : InvMap) (id : Nat) (it : Item) (q q' : Nat)
    (h : invLookup inv id = some (it, q)) :
    invLookup (invSetQty inv id q') id = some (it, q') := by
  induction inv with
  | nil => simp [invLookup] at h
  | cons e rest ih =>
    by_cases he : e.1 = id
    · simp only [invLookup, if_pos he] at h
      have h2 : e.2 = (it, q) := Option.some.inj h
      simp [invSetQty, invLookup, he, h2]
    · simp only [invLookup, if_neg he] at h
      simp only [invSetQty, if_neg he, invLookup, if_neg he]
      exact ih h

theorem invLookup_invSetQty_ne (inv : InvMap) (id id' : Nat) (q' : Nat) (h : id' ≠ id) :
    invLookup (invSetQty inv id q') id' = invLookup inv id' := by
  induction inv with
  | nil => simp [invSetQty]
  | cons e rest ih =>
    by_cases he : e.1 = id
    · have hne : ¬ e.1 = id' := fun hc => h (hc ▸ he ▸ rfl)
      simp only [invSetQty, if_pos he, invLookup]
      rw [if_neg, if_neg hne]
      rw [he]
      exact fun hc => h hc.symm
    · simp only [invSetQty, if_neg he, invLookup]
      by_cases he' : e.1 = id'
      · simp [he']
      · simp only [if_neg he']
        exact ih

theorem invShape_invSetQty (inv : InvMap) (id : Nat) (q' : Nat) :
    invShape (invSetQty inv id q') = invShape inv := by
  induction inv with
  | nil => simp [invSetQty]
  | cons e rest ih =>
    by_cases he : e.1 = id
    · simp [invSetQty, he, invShape]
    · simp only [invSetQty, if_neg he, invShape, List.map_cons]
      exact congrArg _ ih

theorem invKeys_of_invShape (a b : InvMap) (h : invShape a = invShape b) :
    invKeys a = invKeys b := by
  have ha : invKeys a = (invShape a).map (fun e => e.1) := by
    simp [invKeys, invShape, List.map_map]
  have hb : invKeys b = (invShape b).map (fun e => e.1) := by
    simp [invKeys, invShape, List.map_map]
  rw [ha, hb, h]

theorem invLookup_isSome_iff_mem (inv : InvMap) (id : Nat) :
    (invLookup inv id).isSome = true ↔ id ∈ invKeys inv := by
  induction inv with
  | nil => simp [invLookup, invKeys]
  | cons e rest ih =>
    by_cases he : e.1 = id
    · simp [invLookup, he, invKeys]
    · simp only [invLookup, if_neg he, invKeys, List.map_cons, List.mem_cons]
      rw [ih]
      constructor
      · exact fun h => Or.inr h
      · rintro (h | h)
        · exact absurd h.symm he
        · exact h

theorem invLookup_eq_none_iff (inv : InvMap) (id : Nat) :
    invLookup inv id = none ↔ id ∉ invKeys inv := by
  rw [← invLookup_isSome_iff_mem]
  cases invLookup inv id <;> simp

theorem invLookup_invInsert_self (inv : InvMap) (id : Nat) (v : Item × Nat) :
    invLookup (invInsert inv id v) id = some v := by
  induction inv with
  | nil => simp [invInsert, invLookup]
  | cons e rest ih =>
    by_cases he : e.1 = id
    · simp [invInsert, he, invLookup]
    · simp only [invInsert, if_neg he, invLookup, if_neg he]
      exact ih

theorem inv_eq_of_shape_lookup (a b : InvMap) (hs : invShape a = invShape b)
    (hn : (invKeys b).Nodup) (hl : ∀ k, invLookup a k = invLookup b k) : a = b := by
  induction b generalizing a with
  | nil =>
    cases a with
    | nil => rfl
    | cons e rest => simp [invShape] at hs
  | cons e rest ih =>
    cases a with
    | nil => simp [invShape] at hs
    | cons f resta =>
      simp only [invShape, List.map_cons, List.cons.injEq, Prod.mk.injEq] at hs
      obtain ⟨⟨hk, _⟩, htail⟩ := hs
      simp only [invKeys, List.map_cons, List.nodup_cons] at hn
      have hf2 : f.2 = e.2 := by
        have hle := hl e.1
        simp only [invLookup, hk, if_pos] at hle
        simpa using hle
      have hf : f = e := Prod.ext hk hf2
      subst hf
      have hrest : resta = rest := by
        apply ih resta htail hn.2
        intro k
        by_cases hke : k = f.1
        · rw [hke]
          have h1 : invLookup resta f.1 = none := by
            rw [invLookup_eq_none_iff, invKeys_of_invShape resta rest htail]
            simpa [invKeys] using hn.1
          have h2 : invLookup rest f.1 = none := by
            rw [invLookup_eq_none_iff]
            simpa [invKeys] using hn.1
          rw [h1, h2]
        · have := hl k
          simp only [invLookup, if_neg (fun hc : f.1 = k => hke hc.symm)] at this
          exact this
      rw [hrest]

theorem insNat_perm (x : Nat) (l : List Nat) : List.Perm (insNat x l) (x :: l) := by
  induction l with
  | nil => simp [insNat]
  | cons y ys ih =>
    by_cases h : x ≤ y
    · simp [insNat, h]
    · simp only [insNat, if_neg h]
      exact (List.Perm.cons y ih).trans (List.Perm.swap x y ys)

theorem sortNat_perm (l : List Nat) : List.Perm (sortNat l) l := by
  induction l with
  | nil => simp [sortNat]
  | cons x xs ih =>
    exact (insNat_perm x (sortNat xs)).trans (List.Perm.cons x ih)

theorem insNat_sorted (x : Nat) (l : List Nat) (h : List.Pairwise (· ≤ ·) l) :
    List.Pairwise (· ≤ ·) (insNat x l) := by
  induction l with
  | nil => simp [insNat]
  | cons y ys ih =>
    by_cases hxy : x ≤ y
    · simp only [insNat, if_pos hxy]
      constructor
      · intro b hb
        rcases List.mem_cons.mp hb with hb | hb
        · exact hb ▸ hxy
        · exact le_trans hxy (List.rel_of_pairwise_cons h hb)
      · exact h
    · simp only [insNat, if_neg hxy]
      have hyx : y ≤ x := le_of_lt (Nat.lt_of_not_le hxy)
      constructor
      · intro b hb
        have hmem : b ∈ x :: ys := (insNat_perm x ys).mem_iff.mp hb
        rcases List.mem_cons.mp hmem with hb' | hb'
        · exact hb' ▸ hyx
        · exact List.rel_of_pairwise_cons h hb'
      · exact ih (List.pairwise_cons.mp h).2

theorem sortNat_sorted (l : List Nat) : List.Pairwise (· ≤ ·) (sortNat l) := by
  induction l with
  | nil => simp [sortNat]
  | cons x xs ih => exact insNat_sorted x (sortNat xs) ih

theorem sortNat_nodup (l : List Nat) (h : l.Nodup) : (sortNat l).Nodup :=
  (sortNat_perm l).nodup_iff.mpr h

theorem pairwise_lt_of_sorted_nodup (l : List Nat) (hs : List.Pairwise (· ≤ ·) l)
    (hn : l.Nodup) : List.Pairwise (· < ·) l := by
  have := List.Pairwise.and hs hn
  exact this.imp (fun h => lt_of_le_of_ne h.1 h.2)

theorem adjust_stock_unknown_eq (s : Store) (id : Nat) (d : Int)
    (h : invLookup s.inventory id = none) :
    s.adjust_stock id d = (Except.error ("Unknown id: " ++ toString id), s) := by
  simp [Store.adjust_stock, h]

theorem adjust_stock_insufficient_eq (s : Store) (id : Nat) (d : Int) (it : Item) (q : Nat)
    (h : invLookup s.inventory id = some (it, q)) (hlt : (q : Int) + d < 0) :
    s.adjust_stock id d =
      (Except.error ("Not enough stock (ID: " ++ toString id ++ ")"), s) := by
  simp [Store.adjust_stock, h, hlt]

theorem adjust_stock_ok_eq (s : Store) (id : Nat) (d : Int) (it : Item) (q : Nat)
    (h : invLookup s.inventory id = some (it, q)) (hge : 0 ≤ (q : Int) + d) :
    s.adjust_stock id d =
      (Except.ok (((q : Int) + d).toNat % U32M),
       { s with inventory := invSetQty s.inventory id (((q : Int) + d).toNat % U32M) }) := by
  simp [Store.adjust_stock, h, not_lt.mpr hge]

/-- C1: adjust_stock returns an error exactly when the item id is absent
(UnknownItem, the "Unknown id" message) or the exact sum current_qty + delta is
negative (InsufficientStock, the "Not enough stock" message); in either error
case the store is unchanged, and after any sequence of adjust_stock calls every
on-hand quantity is non-negative (it is a Nat by construction, and the guard is
what keeps the stored i64-to-u32 narrowing of a non-negative value). -/
theorem adjust_stock_error_iff (s : Store) (id : Nat) (d : Int) :
    ((exOk (s.adjust_stock id d).1 = false) ↔
      (invLookup s.inventory id = none ∨
        ∃ it q, invLookup s.inventory id = some (it, q) ∧ (q : Int) + d < 0)) ∧
    (exOk (s.adjust_stock id d).1 = false → (s.adjust_stock id d).2 = s) ∧
    (invLookup s.inventory id = none →
      (s.adjust_stock id d).1 = Except.error ("Unknown id: " ++ toString id)) ∧
    (∀ it q, invLookup s.inventory id = some (it, q) → (q : Int) + d < 0 →
      (s.adjust_stock id d).1 =
        Except.error ("Not enough stock (ID: " ++ toString id ++ ")")) ∧
    (∀ adjusts : List (Nat × Int), ∀ id' it q,
      invLookup (applyAdjusts s adjusts).inventory id' = some (it, q) → 0 ≤ q) := by
  refine ⟨?_, ?_, ?_, ?_, ?_⟩
  · rcases hc : invLookup s.inventory id with _ | ⟨it, q⟩
    · rw [adjust_stock_unknown_eq s id d hc]
      simp only [exOk]
      constructor
      · intro _
        exact Or.inl trivial
      · intro _
        trivial
    · by_cases hlt : (q : Int) + d < 0
      · rw [adjust_stock_insufficient_eq s id d it q hc hlt]
        simp only [exOk]
        constructor
        · intro _
          exact Or.inr ⟨it, q, rfl, hlt⟩
        · intro _
          trivial
      · rw [adjust_stock_ok_eq s id d it q hc (not_lt.mp hlt)]
        simp only [exOk]
        constructor
        · intro h
          exact Bool.noConfusion h
        · rintro (h | ⟨it', q', hl', hlt'⟩)
          · exact Option.noConfusion h
          · exfalso
            have hq : q = q' := congrArg (fun p => p.2) (Option.some.inj hl')
            rw [← hq] at hlt'
            exact hlt hlt'
  · intro herr
    rcases hc : invLookup s.inventory id with _ | ⟨it, q⟩
    · rw [adjust_stock_unknown_eq s id d hc]
    · by_cases hlt : (q : Int) + d < 0
      · rw [adjust_stock_insufficient_eq s id d it q hc hlt]
      · rw [adjust_stock_ok_eq s id d it q hc (not_lt.mp hlt)] at herr ⊢
        simp [exOk] at herr
  · intro hc
    rw [adjust_stock_unknown_eq s id d hc]
  · intro it q hc hlt
    rw [adjust_stock_insufficient_eq s id d it q hc hlt]
  · intro _ _ _ q _
    exact Nat.zero_le q

/-- Witness for C1 at a concrete store: a missing id yields the UnknownItem
error, an oversized reservation yields the InsufficientStock error. -/
theorem adjust_stock_error_iff_witness :
    (cS1.adjust_stock 2 (-1)).1 = Except.error ("Unknown id: " ++ toString 2) ∧
    (cS1.adjust_stock 1 (-10)).1 =
      Except.error ("Not enough stock (ID: " ++ toString 1 ++ ")") ∧
    (cS1.adjust_stock 2 (-1)).2 = cS1 :=
  ⟨(adjust_stock_error_iff cS1 2 (-1)).2.2.1 (by decide),
   (adjust_stock_error_iff cS1 1 (-10)).2.2.2.1 cItem1 5 (by decide) (by decide),
   (adjust_stock_error_iff cS1 2 (-1)).2.1 (by decide)⟩

/-- C4 counterexample: with current_qty = u32::MAX = 4294967295 and delta = +1
the guard passes (the exact sum 4294967296 is non-negative) but the source
stores `new_qty as u32`, i.e. 4294967296 mod 2^32 = 0, and returns Ok(0) — not
the exact sum 4294967296 the claim requires.  (The `as` cast wraps in both
debug and release Rust.) -/
theorem adjust_stock_truncation_cex :
    (cBig.adjust_stock 7 1).1 = Except.ok 0 ∧
    invLookup (cBig.adjust_stock 7 1).2.inventory 7 = some (⟨"big", 7, 1, 1⟩, 0) ∧
    (0 : Nat) ≠ 4294967295 + 1 := by
  refine ⟨by rfl, by rfl, by decide⟩

/-- C4 (amended): when the item exists and the exact sum current_qty + delta is
non-negative AND fits in u32, adjust_stock succeeds, stores exactly
current_qty + delta, returns that same value, and touches no other item.  (When
the sum is ≥ 2^32 the call still succeeds but stores the sum mod 2^32, per the
counterexample.) -/
theorem adjust_stock_success_spec (s : Store) (id : Nat) (d : Int) (it : Item) (q : Nat)
    (hl : invLookup s.inventory id = some (it, q)) (hge : 0 ≤ (q : Int) + d)
    (hlt : (q : Int) + d < ((U32M : Nat) : Int)) :
    (s.adjust_stock id d).1 = Except.ok (((q : Int) + d).toNat) ∧
    invLookup (s.adjust_stock id d).2.inventory id = some (it, ((q : Int) + d).toNat) ∧
    ((((q : Int) + d).toNat : Int)) = (q : Int) + d ∧
    (∀ id', id' ≠ id →
      invLookup (s.adjust_stock id d).2.inventory id' = invLookup s.inventory id') := by
  have hmod : ((q : Int) + d).toNat % U32M = ((q : Int) + d).toNat := by
    apply Nat.mod_eq_of_lt
    have : (((q : Int) + d).toNat : Int) < ((U32M : Nat) : Int) := by
      rw [Int.toNat_of_nonneg hge]
      exact hlt
    exact_mod_cast this
  rw [adjust_stock_ok_eq s id d it q hl hge]
  refine ⟨by rw [hmod], ?_, Int.toNat_of_nonneg hge, ?_⟩
  · simp only [hmod]
    exact invLookup_invSetQty_self s.inventory id it q _ hl
  · intro id' hne
    simp only
    exact invLookup_invSetQty_ne s.inventory id id' _ hne

/-- Witness for C4 (amended): restocking 3 units of item 1 (quantity 5) stores
and returns exactly 8. -/
theorem adjust_stock_success_spec_witness :
    (cS1.adjust_stock 1 3).1 = Except.ok (((5 : Int) + 3).toNat) ∧
    invLookup (cS1.adjust_stock 1 3).2.inventory 1 = some (cItem1, ((5 : Int) + 3).toNat) ∧
    ((((5 : Int) + 3).toNat : Int)) = (5 : Int) + 3 ∧
    (∀ id', id' ≠ 1 →
      invLookup (cS1.adjust_stock 1 3).2.inventory id' = invLookup cS1.inventory id') :=
  adjust_stock_success_spec cS1 1 3 cItem1 5 (by decide) (by decide) (by decide)

/-- C8: the Grams display partitions grams into three bands: ≥908 renders the
ceiling of g/453.59237 with "lb", 57..907 renders the ceiling of
g/28.349523125 with "oz", and <57 renders the gram count with "g"; in
particular 10g, 3oz for 57 g, 3lb for 908 g and 28lb for 12613 g. -/
theorem grams_display_spec :
    (∀ g, 908 ≤ g → gramsDisplay g = toString ((g * 100000 + 45359236) / 45359237) ++ "lb") ∧
    (∀ g, 57 ≤ g → g ≤ 907 →
      gramsDisplay g = toString ((g * 1000000000 + 28349523124) / 28349523125) ++ "oz") ∧
    (∀ g, g < 57 → gramsDisplay g = toString g ++ "g") ∧
    gramsDisplay 10 = "10g" ∧ gramsDisplay 57 = "3oz" ∧
    gramsDisplay 908 = "3lb" ∧ gramsDisplay 12613 = "28lb" := by
  refine ⟨?_, ?_, ?_, by rfl, by rfl, by rfl, by rfl⟩
  · intro g hg
    simp [gramsDisplay, hg]
  · intro g hg1 hg2
    have h908 : ¬ 908 ≤ g := by omega
    simp [gramsDisplay, h908, hg1]
  · intro g hg
    have h908 : ¬ 908 ≤ g := by omega
    have h57 : ¬ 57 ≤ g := by omega
    simp [gramsDisplay, h908, h57]

/-- Witness for C8: one concrete gram count in each display band. -/
theorem grams_display_spec_witness :
    gramsDisplay 1000 = toString ((1000 * 100000 + 45359236) / 45359237) ++ "lb" ∧
    gramsDisplay 100 = toString ((100 * 1000000000 + 28349523124) / 28349523125) ++ "oz" ∧
    gramsDisplay 20 = toString 20 ++ "g" :=
  ⟨grams_display_spec.1 1000 (by decide),
   grams_display_spec.2.1 100 (by decide) (by decide),
   grams_display_spec.2.2.1 20 (by decide)⟩

theorem adjust_stock_frame (s : Store) (id : Nat) (d : Int) :
    (s.adjust_stock id d).2.orders = s.orders ∧
    (s.adjust_stock id d).2.next_item_id = s.next_item_id ∧
    (s.adjust_stock id d).2.next_order_id = s.next_order_id ∧
    invShape (s.adjust_stock id d).2.inventory = invShape s.inventory := by
  rcases hc : invLookup s.inventory id with _ | ⟨it, q⟩
  · rw [adjust_stock_unknown_eq s id d hc]
    exact ⟨rfl, rfl, rfl, rfl⟩
  · by_cases hlt : (q : Int) + d < 0
    · rw [adjust_stock_insufficient_eq s id d it q hc hlt]
      exact ⟨rfl, rfl, rfl, rfl⟩
    · rw [adjust_stock_ok_eq s id d it q hc (not_lt.mp hlt)]
      exact ⟨rfl, rfl, rfl, invShape_invSetQty _ _ _⟩

theorem commit_order_some_state (s : Store) (lines : List OrderLine) (o : Order) (s' : Store)
    (h : s.commit_order lines = some (o, s')) :
    s'.inventory = s.inventory ∧ s'.orders = s.orders ∧
    s'.next_item_id = s.next_item_id ∧
    s'.next_order_id = (s.next_order_id + 1) % U32M ∧
    o.id = s.next_order_id ∧ o.items = lines := by
  unfold Store.commit_order at h
  rcases hagg : commitAggAux s 0 0 lines with _ | ⟨c, g⟩
  · rw [hagg] at h
    exact Option.noConfusion h
  · rw [hagg] at h
    dsimp only at h
    by_cases hc : c < U32M
    · rw [if_pos hc] at h
      by_cases hgl : g < U32M
      · rw [if_pos hgl] at h
        have h2 := Option.some.inj h
        rw [Prod.ext_iff] at h2
        obtain ⟨ho, hs⟩ := h2
        dsimp only at ho hs
        rw [← ho, ← hs]
        exact ⟨rfl, rfl, rfl, rfl, rfl, rfl⟩
      · rw [if_neg hgl] at h
        exact Option.noConfusion h
    · rw [if_neg hc] at h
      exact Option.noConfusion h

/-- C7 counterexample: at next_order_id = u32::MAX = 4294967295 a successful
commit leaves the counter at (4294967295 + 1) mod 2^32 = 0, not at the exact
successor 4294967296 — `self.next_order_id += 1` wraps (release) or panics
(debug); either way the counter is not incremented by exactly 1. -/
theorem commit_order_counter_wrap_cex :
    ((cS7.commit_order [⟨1, 1⟩]).map (fun p => p.2.next_order_id)) = some 0 ∧
    (0 : Nat) ≠ 4294967295 + 1 :=
  ⟨by rfl, by decide⟩

/-- C7 (amended): whenever commit_order returns, the inventory (every item and
quantity), the order history and the item-id counter are unchanged; the only
mutated state is the order-id counter, incremented by exactly 1 modulo 2^32
(exactly 1 whenever the counter is below u32::MAX). -/
theorem commit_order_frame_spec (s : Store) (lines : List OrderLine) (o : Order) (s' : Store)
    (h : s.commit_order lines = some (o, s')) :
    s'.inventory = s.inventory ∧ s'.orders = s.orders ∧
    s'.next_item_id = s.next_item_id ∧
    s'.next_order_id = (s.next_order_id + 1) % U32M ∧
    (s.next_order_id + 1 < U32M → s'.next_order_id = s.next_order_id + 1) := by
  obtain ⟨h1, h2, h3, h4, _, _⟩ := commit_order_some_state s lines o s' h
  exact ⟨h1, h2, h3, h4, fun hlt => by rw [h4, Nat.mod_eq_of_lt hlt]⟩

/-- Witness for C7 at a concrete commit. -/
theorem commit_order_frame_spec_witness :
    cS1c.inventory = cS1.inventory ∧ cS1c.orders = cS1.orders ∧
    cS1c.next_item_id = cS1.next_item_id ∧
    cS1c.next_order_id = (cS1.next_order_id + 1) % U32M ∧
    (cS1.next_order_id + 1 < U32M → cS1c.next_order_id = cS1.next_order_id + 1) :=
  commit_order_frame_spec cS1 [⟨1, 2⟩] cO1 cS1c (by rfl)

theorem commitAggAux_some_of_all (s : Store) (lines : List OrderLine) :
    ∀ c g : Nat, c < U64M → g < U64M →
      (∀ l ∈ lines, (s.inventory_get l.item_id).isSome = true) →
      commitAggAux s c g lines =
        some ((c + costSum s lines) % U64M, (g + weightSum s lines) % U64M) := by
  induction lines with
  | nil =>
    intro c g hc hg _
    simp [commitAggAux, costSum, weightSum, Nat.mod_eq_of_lt hc, Nat.mod_eq_of_lt hg]
  | cons l rest ih =>
    intro c g hc hg hall
    rcases hl : s.inventory_get l.item_id with _ | ⟨it, av⟩
    · have hmem := hall l (List.mem_cons_self l rest)
      rw [hl] at hmem
      simp at hmem
    · simp only [commitAggAux, hl]
      rw [ih _ _ (Nat.mod_lt _ (by decide)) (Nat.mod_lt _ (by decide))
          (fun x hx => hall x (List.mem_cons_of_mem l hx))]
      have hcost : costSum s (l :: rest) = it.cost * l.qty + costSum s rest := by
        simp [costSum, lineCost, hl]
      have hweight : weightSum s (l :: rest) = it.weight * l.qty + weightSum s rest := by
        simp [weightSum, lineWeight, hl]
      rw [hcost, hweight, Nat.mod_add_mod, Nat.mod_add_mod, Nat.add_assoc, Nat.add_assoc]

theorem commitAggAux_isSome_iff (s : Store) (lines : List OrderLine) :
    ∀ c g : Nat, (commitAggAux s c g lines).isSome = true ↔
      ∀ l ∈ lines, (s.inventory_get l.item_id).isSome = true := by
  induction lines with
  | nil =>
    intro c g
    simp [commitAggAux]
  | cons l rest ih =>
    intro c g
    rcases hl : s.inventory_get l.item_id with _ | ⟨it, av⟩
    · simp only [commitAggAux, hl]
      constructor
      · intro h
        exact absurd h (by simp)
      · intro h
        have hmem := h l (List.mem_cons_self l rest)
        rw [hl] at hmem
        simp at hmem
    · simp only [commitAggAux, hl]
      rw [ih]
      constructor
      · intro h x hx
        rcases List.mem_cons.mp hx with hx | hx
        · rw [hx, hl]
          rfl
        · exact h x hx
      · intro h x hx
        exact h x (List.mem_cons_of_mem l hx)

theorem commit_order_eq_of_sums (s : Store) (lines : List OrderLine)
    (hall : ∀ l ∈ lines, (s.inventory_get l.item_id).isSome = true)
    (hcb : costSum s lines < U64M) (hwb : weightSum s lines < U64M) :
    s.commit_order lines =
      (if costSum s lines < U32M then
        if weightSum s lines < U32M then
          some ({ id := s.next_order_id, cost := costSum s lines,
                  ship_weight := weightSum s lines, items := lines },
                { s with next_order_id := (s.next_order_id + 1) % U32M })
        else none
      else none) := by
  unfold Store.commit_order
  rw [commitAggAux_some_of_all s lines 0 0 (by decide) (by decide) hall]
  dsimp only
  rw [Nat.zero_add, Nat.zero_add, Nat.mod_eq_of_lt hcb, Nat.mod_eq_of_lt hwb]

theorem commitRun_ids (lss : List (List OrderLine)) :
    ∀ s : Store, s.next_order_id < U32M →
      ∃ k, k ≤ lss.length ∧
        commitRun s lss = (List.range k).map (fun i => (s.next_order_id + i) % U32M) := by
  induction lss with
  | nil =>
    intro s _
    exact ⟨0, by simp, by simp [commitRun]⟩
  | cons ls rest ih =>
    intro s hs
    rcases hco : s.commit_order ls with _ | ⟨o, s'⟩
    · refine ⟨0, by simp, ?_⟩
      simp [commitRun, hco]
    · obtain ⟨_, _, _, h4, h5, _⟩ := commit_order_some_state s ls o s' hco
      obtain ⟨k, hk, hrun⟩ := ih s' (by rw [h4]; exact Nat.mod_lt _ (by decide))
      refine ⟨k + 1, by simpa using Nat.succ_le_succ hk, ?_⟩
      simp only [commitRun, hco]
      rw [hrun, h5, h4, List.range_succ_eq_map, List.map_cons, List.map_map]
      congr 1
      · rw [Nat.add_zero, Nat.mod_eq_of_lt hs]
      · apply List.map_congr_left
        intro i _
        simp only [Function.comp]
        rw [Nat.mod_add_mod]
        congr 1
        omega

/-- C2 counterexample: every line id exists, each line contributes
2^31 * 2^31 = 2^62 cents, so the true aggregate cost is 4 * 2^62 = 2^64, far
above the u32 storage width — yet the u64 accumulator wraps to 0,
`try_into::<u32>` succeeds, and commit_order returns an order with cost 0
instead of failing.  (Debug Rust would panic on the fourth `+=` instead of
wrapping; either way the claim's "fails exactly when the true aggregate
exceeds the u32 width, never silently wrapping" does not hold.) -/
theorem commit_order_wrap_cex :
    (∀ l ∈ cWrapLines, (cWrap.inventory_get l.item_id).isSome = true) ∧
    costSum cWrap cWrapLines = 18446744073709551616 ∧
    ¬ costSum cWrap cWrapLines < U32M ∧
    ((cWrap.commit_order cWrapLines).map (fun p => p.1.cost)) = some 0 :=
  ⟨by decide, by decide, by decide, by rfl⟩

/-- C2 (amended): for every line set whose item ids all exist and whose exact
aggregates fit in the u64 accumulator, commit_order succeeds iff both exact
aggregates fit in u32, and on success the order carries exactly
cost = Σ unit_cost * qty, ship_weight = Σ unit_weight * qty, the line list, and
id equal to the current counter; across at most u32::MAX successive commits
starting from a fresh counter, the issued order ids are strictly increasing
starting at 1. -/
theorem commit_order_totals_spec :
    (∀ (s : Store) (lines : List OrderLine),
      (∀ l ∈ lines, (s.inventory_get l.item_id).isSome = true) →
      costSum s lines < U64M → weightSum s lines < U64M →
      (((s.commit_order lines).isSome = true) ↔
        (costSum s lines < U32M ∧ weightSum s lines < U32M)) ∧
      (∀ o s', s.commit_order lines = some (o, s') →
        o.cost = costSum s lines ∧ o.ship_weight = weightSum s lines ∧
        o.id = s.next_order_id ∧ o.items = lines)) ∧
    (∀ (s : Store) (lss : List (List OrderLine)),
      s.next_order_id = 1 → lss.length ≤ U32M - 1 →
      List.Pairwise (· < ·) (commitRun s lss) ∧
      (commitRun s lss ≠ [] → (commitRun s lss).head? = some 1)) := by
  constructor
  · intro s lines hall hcb hwb
    rw [commit_order_eq_of_sums s lines hall hcb hwb]
    constructor
    · by_cases h1 : costSum s lines < U32M
      · by_cases h2 : weightSum s lines < U32M
        · simp [h1, h2]
        · simp [h1, h2]
      · simp [h1]
    · intro o s' h
      by_cases h1 : costSum s lines < U32M
      · by_cases h2 : weightSum s lines < U32M
        · rw [if_pos h1, if_pos h2] at h
          have h3 := Option.some.inj h
          rw [Prod.ext_iff] at h3
          obtain ⟨ho, _⟩ := h3
          dsimp only at ho
          rw [← ho]
          exact ⟨rfl, rfl, rfl, rfl⟩
        · rw [if_pos h1, if_neg h2] at h
          exact Option.noConfusion h
      · rw [if_neg h1] at h
        exact Option.noConfusion h
  · intro s lss hs hlen
    obtain ⟨k, hk, hrun⟩ := commitRun_ids lss s (by rw [hs]; decide)
    rw [hs] at hrun
    have hmap : commitRun s lss = (List.range k).map (fun i => 1 + i) := by
      rw [hrun]
      apply List.map_congr_left
      intro i hi
      have hik : i < k := List.mem_range.mp hi
      have hik2 : i < U32M - 1 := lt_of_lt_of_le hik (le_trans hk hlen)
      have hlt : 1 + i < U32M := by
        unfold U32M at hik2 ⊢
        omega
      exact Nat.mod_eq_of_lt hlt
    constructor
    · rw [hmap]
      refine List.Pairwise.map _ ?_ (List.pairwise_lt_range k)
      intro a b hab
      omega
    · intro hne
      rw [hmap] at hne ⊢
      cases k with
      | zero => simp at hne
      | succ k' =>
        rw [List.range_succ_eq_map, List.map_cons]
        rfl

/-- Witness for C2 at a concrete store: one commit evaluated, and two
successive commits yielding ids 1 and 2. -/
theorem commit_order_totals_spec_witness :
    (((cS1.commit_order [⟨1, 2⟩]).isSome = true) ↔
      (costSum cS1 [⟨1, 2⟩] < U32M ∧ weightSum cS1 [⟨1, 2⟩] < U32M)) ∧
    List.Pairwise (· < ·) (commitRun cS1 [[⟨1, 1⟩], [⟨1, 2⟩]]) ∧
    (commitRun cS1 [[⟨1, 1⟩], [⟨1, 2⟩]] ≠ [] →
      (commitRun cS1 [[⟨1, 1⟩], [⟨1, 2⟩]]).head? = some 1) :=
  ⟨(commit_order_totals_spec.1 cS1 [⟨1, 2⟩] (by decide) (by decide) (by decide)).1,
   (commit_order_totals_spec.2 cS1 [[⟨1, 1⟩], [⟨1, 2⟩]] (by rfl) (by decide)).1,
   (commit_order_totals_spec.2 cS1 [[⟨1, 1⟩], [⟨1, 2⟩]] (by rfl) (by decide)).2⟩

theorem stockNewN_ids : ∀ (n : Nat) (s : Store), s.next_item_id < U32M →
    stockNewN s n = (List.range n).map (fun i => (s.next_item_id + i) % U32M) := by
  intro n
  induction n with
  | zero =>
    intro s _
    simp [stockNewN]
  | succ n' ih =>
    intro s hs
    have hnext : (s.stock_new "item" 0 0 0).2.next_item_id = (s.next_item_id + 1) % U32M := rfl
    simp only [stockNewN]
    rw [ih _ (by rw [hnext]; exact Nat.mod_lt _ (by decide))]
    rw [hnext, List.range_succ_eq_map, List.map_cons, List.map_map]
    congr 1
    · rw [Nat.add_zero, Nat.mod_eq_of_lt hs]
      rfl
    · apply List.map_congr_left
      intro i _
      simp only [Function.comp]
      rw [Nat.mod_add_mod]
      congr 1
      omega

/-- C6 counterexample: 2^32 consecutive stock_new calls on a fresh store.  The
u32 id counter wraps after issuing id 4294967295, so call number 2^32 returns
id 0 (`self.next_item_id += 1` wraps in release Rust, panics in debug — either
way the returned id sequence is not strictly increasing for N = 2^32). -/
theorem stock_new_wraparound_cex :
    ¬ List.Pairwise (· < ·) (stockNewN Store.new U32M) := by
  intro hp
  rw [stockNewN_ids U32M Store.new (by decide)] at hp
  have hs1 : Store.new.next_item_id = 1 := rfl
  rw [hs1] at hp
  rw [List.pairwise_iff_get] at hp
  have hlen : ((List.range U32M).map (fun i => (1 + i) % U32M)).length = U32M := by
    simp
  have h1 : U32M - 2 < ((List.range U32M).map (fun i => (1 + i) % U32M)).length := by
    rw [hlen]
    decide
  have h2 : U32M - 1 < ((List.range U32M).map (fun i => (1 + i) % U32M)).length := by
    rw [hlen]
    decide
  have hp2 := hp ⟨U32M - 2, h1⟩ ⟨U32M - 1, h2⟩ (by rw [Fin.mk_lt_mk]; decide)
  have e1 : ((List.range U32M).map (fun i => (1 + i) % U32M)).get ⟨U32M - 2, h1⟩ =
      (1 + (U32M - 2)) % U32M := by
    rw [List.get_eq_getElem, List.getElem_map, List.getElem_range]
  have e2 : ((List.range U32M).map (fun i => (1 + i) % U32M)).get ⟨U32M - 1, h2⟩ =
      (1 + (U32M - 1)) % U32M := by
    rw [List.get_eq_getElem, List.getElem_map, List.getElem_range]
  rw [e1, e2] at hp2
  have hv1 : (1 + (U32M - 2)) % U32M = 4294967295 := by decide
  have hv2 : (1 + (U32M - 1)) % U32M = 0 := by decide
  rw [hv1, hv2] at hp2
  exact absurd hp2 (by decide)

theorem runTrace_ids (ops : List Op) :
    ∀ s : Store, s.next_item_id < U32M →
      ∃ k, (runTrace s ops).1 = (List.range k).map (fun i => (s.next_item_id + i) % U32M) := by
  induction ops with
  | nil =>
    intro s _
    exact ⟨0, by simp [runTrace]⟩
  | cons op rest ih =>
    intro s hs
    cases op with
    | opStockNew n c w q =>
      have hnext : (s.stock_new n c w q).2.next_item_id = (s.next_item_id + 1) % U32M := rfl
      obtain ⟨k, hk⟩ := ih (s.stock_new n c w q).2 (by rw [hnext]; exact Nat.mod_lt _ (by decide))
      refine ⟨k + 1, ?_⟩
      simp only [runTrace]
      rw [hk, hnext, List.range_succ_eq_map, List.map_cons, List.map_map]
      congr 1
      · rw [Nat.add_zero, Nat.mod_eq_of_lt hs]
        rfl
      · apply List.map_congr_left
        intro i _
        simp only [Function.comp]
        rw [Nat.mod_add_mod]
        congr 1
        omega
    | opStock item q =>
      obtain ⟨k, hk⟩ := ih (s.stock item q) hs
      exact ⟨k, by simp only [runTrace]; exact hk⟩
    | opAdjust id d =>
      obtain ⟨_, hitem, _, _⟩ := adjust_stock_frame s id d
      obtain ⟨k, hk⟩ := ih (s.adjust_stock id d).2 (by rw [hitem]; exact hs)
      refine ⟨k, ?_⟩
      simp only [runTrace]
      rw [hk, hitem]
    | opCommit lines =>
      rcases hco : s.commit_order lines with _ | ⟨o, s'⟩
      · refine ⟨0, ?_⟩
        simp [runTrace, hco]
      · obtain ⟨_, _, h3, _, _, _⟩ := commit_order_some_state s lines o s' hco
        obtain ⟨k, hk⟩ := ih s' (by rw [h3]; exact hs)
        refine ⟨k, ?_⟩
        simp only [runTrace, hco]
        rw [hk, h3]
    | opPush o =>
      obtain ⟨k, hk⟩ := ih (s.push_order o) hs
      exact ⟨k, by simp only [runTrace]; exact hk⟩

/-- C6 (amended): in any interleaving of store operations starting from a
fresh store, as long as at most u32::MAX - 1 stock_new calls are performed,
the ids they return are exactly 1, 2, 3, ... in order — distinct, strictly
increasing, starting at 1 — and immediately after each stock_new call the
inventory maps the returned id to an Item with exactly the given name, cost
and weight, paired with the given quantity. -/
theorem stock_new_ids_spec :
    (∀ ops : List Op, (runTrace Store.new ops).1.length ≤ U32M - 1 →
      (runTrace Store.new ops).1 =
        (List.range (runTrace Store.new ops).1.length).map (fun i => i + 1) ∧
      List.Pairwise (· < ·) (runTrace Store.new ops).1 ∧
      ((runTrace Store.new ops).1 ≠ [] → (runTrace Store.new ops).1.head? = some 1)) ∧
    (∀ (s : Store) (name : String) (cost weight quantity : Nat),
      invLookup (s.stock_new name cost weight quantity).2.inventory
          (s.stock_new name cost weight quantity).1 =
        some (⟨name, s.next_item_id, cost, weight⟩, quantity)) := by
  constructor
  · intro ops hlen
    obtain ⟨k, hk⟩ := runTrace_ids ops Store.new (by decide)
    have hs1 : Store.new.next_item_id = 1 := rfl
    rw [hs1] at hk
    have hklen : (runTrace Store.new ops).1.length = k := by
      rw [hk]
      simp
    rw [hklen] at hlen ⊢
    have hmap : (runTrace Store.new ops).1 = (List.range k).map (fun i => i + 1) := by
      rw [hk]
      apply List.map_congr_left
      intro i hi
      have hik : i < k := List.mem_range.mp hi
      have h2 : 1 + i < U32M := by
        have h3 : i < U32M - 1 := lt_of_lt_of_le hik hlen
        unfold U32M at h3 ⊢
        omega
      rw [Nat.mod_eq_of_lt h2, Nat.add_comm]
    refine ⟨hmap, ?_, ?_⟩
    · rw [hmap]
      refine List.Pairwise.map _ ?_ (List.pairwise_lt_range k)
      intro a b hab
      omega
    · intro hne
      rw [hmap] at hne ⊢
      cases k with
      | zero => simp at hne
      | succ k' =>
        rw [List.range_succ_eq_map, List.map_cons]
        rfl
  · intro s name cost weight quantity
    exact invLookup_invInsert_self s.inventory s.next_item_id
      (⟨name, s.next_item_id, cost, weight⟩, quantity)

/-- Witness for C6: two stock_new calls on a fresh store return ids [1, 2];
one concrete stock_new on cS1 stores the new item under the returned id. -/
theorem stock_new_ids_spec_witness :
    (runTrace Store.new [Op.opStockNew "a" 1 2 3, Op.opStockNew "b" 4 5 6]).1 =
      (List.range
        (runTrace Store.new [Op.opStockNew "a" 1 2 3, Op.opStockNew "b" 4 5 6]).1.length).map
        (fun i => i + 1) ∧
    List.Pairwise (· < ·)
      (runTrace Store.new [Op.opStockNew "a" 1 2 3, Op.opStockNew "b" 4 5 6]).1 ∧
    ((runTrace Store.new [Op.opStockNew "a" 1 2 3, Op.opStockNew "b" 4 5 6]).1 ≠ [] →
      (runTrace Store.new [Op.opStockNew "a" 1 2 3, Op.opStockNew "b" 4 5 6]).1.head? =
        some 1) ∧
    invLookup (cS1.stock_new "bolt" 9 9 9).2.inventory (cS1.stock_new "bolt" 9 9 9).1 =
      some (⟨"bolt", cS1.next_item_id, 9, 9⟩, 9) := by
  have h := stock_new_ids_spec
  exact ⟨(h.1 _ (by decide)).1, (h.1 _ (by decide)).2.1, (h.1 _ (by decide)).2.2,
    h.2 cS1 "bolt" 9 9 9⟩

/-- C9: for every well-formed store, inventory_ids_sorted returns exactly the
ids present in the inventory (a permutation of the key list), strictly
ascending with no duplicates, and inventory_get returns Some for every listed
id — so the table printer's per-row lookup can never fail. -/
theorem inventory_ids_sorted_spec (s : Store) (h : Store.WF s) :
    List.Perm s.inventory_ids_sorted (invKeys s.inventory) ∧
    List.Pairwise (· < ·) s.inventory_ids_sorted ∧
    (∀ id ∈ s.inventory_ids_sorted, (s.inventory_get id).isSome = true) := by
  refine ⟨sortNat_perm _, ?_, ?_⟩
  · exact pairwise_lt_of_sorted_nodup _ (sortNat_sorted _) (sortNat_nodup _ h.1)
  · intro id hid
    have hmem : id ∈ invKeys s.inventory := (sortNat_perm _).mem_iff.mp hid
    exact (invLookup_isSome_iff_mem s.inventory id).mpr hmem

/-- Witness for C9 at a concrete two-item store stored out of key order. -/
theorem inventory_ids_sorted_spec_witness :
    List.Perm cS2.inventory_ids_sorted (invKeys cS2.inventory) ∧
    List.Pairwise (· < ·) cS2.inventory_ids_sorted ∧
    (∀ id ∈ cS2.inventory_ids_sorted, (cS2.inventory_get id).isSome = true) :=
  inventory_ids_sorted_spec cS2 ⟨by decide, by decide⟩

/-- C10: in the order builder, a typed row number is a zero-based index into
the ascending-sorted item-id list: an input ≥ n (the inventory size) is
rejected, leaving the session state (store and reservation map) unchanged and
re-looping, while an input row < n acts on exactly the (row+1)-th item in
ascending id order — an id that is present in the inventory and strictly
greater than every id at an earlier row. -/
theorem build_order_row_selection_spec (s : Store) (oq : List (Nat × Nat))
    (rest : List Cmd) (row qty : Nat) :
    (s.inventory_ids_sorted.length ≤ row →
      buildOrderT s oq (Cmd.sel row qty :: rest) = buildOrderT s oq rest) ∧
    (∀ h : row < s.inventory_ids_sorted.length,
      (Store.WF s →
        s.inventory_ids_sorted.get ⟨row, h⟩ ∈ invKeys s.inventory ∧
        ∀ j, (hj : j < row) →
          s.inventory_ids_sorted.get ⟨j, lt_trans hj h⟩ <
            s.inventory_ids_sorted.get ⟨row, h⟩) ∧
      buildOrderT s oq (Cmd.sel row qty :: rest) =
        (let id := s.inventory_ids_sorted.get ⟨row, h⟩
         let r := s.adjust_stock id (i32neg (i32_of_u32 qty))
         match r.1 with
         | Except.ok _ =>
           let out := buildOrderT r.2 (oqAdd oq id qty) rest
           (out.1, out.2.1, (id, qty) :: out.2.2)
         | Except.error _ => buildOrderT r.2 oq rest)) := by
  constructor
  · intro hle
    simp only [buildOrderT]
    rw [dif_neg (not_lt.mpr hle)]
  · intro h
    constructor
    · intro hwf
      constructor
      · have hmem : s.inventory_ids_sorted.get ⟨row, h⟩ ∈ s.inventory_ids_sorted :=
          List.get_mem _ _ h
        exact (sortNat_perm _).mem_iff.mp hmem
      · intro j hj
        have hpl : List.Pairwise (· < ·) s.inventory_ids_sorted :=
          pairwise_lt_of_sorted_nodup _ (sortNat_sorted _) (sortNat_nodup _ hwf.1)
        exact List.pairwise_iff_get.mp hpl ⟨j, lt_trans hj h⟩ ⟨row, h⟩ (Fin.mk_lt_mk.mpr hj)
    · simp only [buildOrderT]
      rw [dif_pos h]

/-- Witness for C10: on the two-item store, row 5 is out of range and is a
no-op, while row 0 addresses the smallest id, which is a real inventory key. -/
theorem build_order_row_selection_spec_witness :
    buildOrderT cS2 [] (Cmd.sel 5 1 :: []) = buildOrderT cS2 [] [] ∧
    cS2.inventory_ids_sorted.get ⟨0, by decide⟩ ∈ invKeys cS2.inventory := by
  have h5 := build_order_row_selection_spec cS2 [] [] 5 1
  have h0 := build_order_row_selection_spec cS2 [] [] 0 1
  refine ⟨h5.1 (by decide), ?_⟩
  exact ((h0.2 (by decide)).1 ⟨by decide, by decide⟩).1

theorem i32_of_u32_small (n : Nat) (h : n < I32H) : i32_of_u32 n = (n : Int) := by
  have hmod : n % U32M = n := Nat.mod_eq_of_lt (lt_trans h (by decide))
  simp [i32_of_u32, hmod, h]

theorem i32neg_small (n : Nat) (h : n < I32H) : i32neg (i32_of_u32 n) = -(n : Int) := by
  rw [i32_of_u32_small n h]
  unfold i32neg
  rw [if_neg]
  intro hc
  have h0 : (0 : Int) ≤ (n : Int) := Int.natCast_nonneg n
  rw [hc] at h0
  exact absurd h0 (by decide)

theorem oqKeys_oqAdd_mem (oq : List (Nat × Nat)) (id q : Nat) (h : id ∈ oqKeys oq) :
    oqKeys (oqAdd oq id q) = oqKeys oq := by
  induction oq with
  | nil => simp [oqKeys] at h
  | cons e rest ih =>
    by_cases he : e.1 = id
    · simp [oqAdd, he, oqKeys]
    · simp only [oqKeys, List.map_cons, List.mem_cons] at h
      rcases h with h | h
      · exact absurd h.symm he
      · simp only [oqAdd, if_neg he, oqKeys, List.map_cons]
        rw [show List.map (fun e => e.1) (oqAdd rest id q) = oqKeys (oqAdd rest id q) from rfl,
          ih h]
        rfl

theorem oqKeys_oqAdd_not_mem (oq : List (Nat × Nat)) (id q : Nat) (h : id ∉ oqKeys oq) :
    oqKeys (oqAdd oq id q) = oqKeys oq ++ [id] := by
  induction oq with
  | nil => simp [oqAdd, oqKeys]
  | cons e rest ih =>
    have he : ¬ e.1 = id := by
      intro hc
      exact h (by simp [oqKeys, hc])
    have hrest : id ∉ oqKeys rest := by
      intro hc
      exact h (by simp [oqKeys]; exact Or.inr (by simpa [oqKeys] using hc))
    simp only [oqAdd, if_neg he, oqKeys, List.map_cons]
    rw [show List.map (fun e => e.1) (oqAdd rest id q) = oqKeys (oqAdd rest id q) from rfl,
      ih hrest]
    rfl

theorem oqAdd_keys_nodup (oq : List (Nat × Nat)) (id q : Nat) (h : (oqKeys oq).Nodup) :
    (oqKeys (oqAdd oq id q)).Nodup := by
  by_cases hm : id ∈ oqKeys oq
  · rw [oqKeys_oqAdd_mem oq id q hm]
    exact h
  · rw [oqKeys_oqAdd_not_mem oq id q hm]
    rw [List.nodup_append]
    refine ⟨h, List.nodup_singleton id, ?_⟩
    intro a ha hb
    rw [List.mem_singleton] at hb
    rw [hb] at ha
    exact hm ha

theorem oqLookup_head_eq (e : Nat × Nat) (rest : List (Nat × Nat)) (id : Nat) (he : ¬ e.1 = id) :
    oqLookup (e :: rest) id = oqLookup rest id := by
  simp [oqLookup, he]

theorem oqLookup_oqAdd_self (oq : List (Nat × Nat)) (id q : Nat) :
    oqLookup (oqAdd oq id q) id = some ((oqv oq id + q) % U32M) := by
  induction oq with
  | nil => simp [oqAdd, oqLookup, oqv]
  | cons e rest ih =>
    by_cases he : e.1 = id
    · simp [oqAdd, he, oqLookup, oqv]
    · simp only [oqAdd, if_neg he]
      rw [oqLookup_head_eq _ _ _ he, ih]
      have : oqv (e :: rest) id = oqv rest id := by
        simp [oqv, oqLookup, he]
      rw [this]

theorem oqLookup_oqAdd_ne (oq : List (Nat × Nat)) (id id' q : Nat) (h : id' ≠ id) :
    oqLookup (oqAdd oq id q) id' = oqLookup oq id' := by
  induction oq with
  | nil =>
    simp only [oqAdd, oqLookup]
    rw [if_neg (fun hc : id = id' => h hc.symm)]
  | cons e rest ih =>
    by_cases he : e.1 = id
    · have hne : ¬ e.1 = id' := fun hc => h (hc ▸ he ▸ rfl)
      simp only [oqAdd, if_pos he, oqLookup]
      rw [if_neg, if_neg hne]
      rw [he]
      exact fun hc => h hc.symm
    · simp only [oqAdd, if_neg he, oqLookup]
      by_cases he' : e.1 = id'
      · simp [he']
      · simp only [if_neg he']
        exact ih

theorem oqv_oqAdd_self (oq : List (Nat × Nat)) (id q : Nat) :
    oqv (oqAdd oq id q) id = (oqv oq id + q) % U32M := by
  simp [oqv, oqLookup_oqAdd_self]

theorem oqv_oqAdd_ne (oq : List (Nat × Nat)) (id id' q : Nat) (h : id' ≠ id) :
    oqv (oqAdd oq id q) id' = oqv oq id' := by
  simp [oqv, oqLookup_oqAdd_ne oq id id' q h]

theorem mem_oqAdd (oq : List (Nat × Nat)) (id q : Nat) (p : Nat × Nat)
    (hn : (oqKeys oq).Nodup) (hp : p ∈ oqAdd oq id q) :
    (p.1 = id ∧ p.2 = (oqv oq id + q) % U32M) ∨ (p ∈ oq ∧ p.1 ≠ id) := by
  induction oq with
  | nil =>
    simp only [oqAdd, List.mem_singleton] at hp
    rw [hp]
    exact Or.inl ⟨rfl, by simp [oqv, oqLookup]⟩
  | cons e rest ih =>
    simp only [oqKeys, List.map_cons, List.nodup_cons] at hn
    by_cases he : e.1 = id
    · simp only [oqAdd, if_pos he, List.mem_cons] at hp
      rcases hp with hp | hp
      · rw [hp]
        refine Or.inl ⟨he, ?_⟩
        simp [oqv, oqLookup, he]
      · refine Or.inr ⟨List.mem_cons_of_mem e hp, ?_⟩
        intro hc
        apply hn.1
        have hmem : p.1 ∈ List.map (fun x => x.1) rest :=
          List.mem_map_of_mem (fun x => x.1) hp
        rw [hc, ← he] at hmem
        exact hmem
    · simp only [oqAdd, if_neg he, List.mem_cons] at hp
      rcases hp with hp | hp
      · rw [hp]
        exact Or.inr ⟨List.mem_cons_self e rest, he⟩
      · rcases ih hn.2 hp with ⟨h1, h2⟩ | ⟨h1, h2⟩
        · refine Or.inl ⟨h1, ?_⟩
          rw [h2]
          have : oqv (e :: rest) id = oqv rest id := by
            simp [oqv, oqLookup, he]
          rw [this]
        · exact Or.inr ⟨List.mem_cons_of_mem e h1, h2⟩

theorem oqLookup_of_mem_nodup (oq : List (Nat × Nat)) (p : Nat × Nat)
    (hn : (oqKeys oq).Nodup) (hp : p ∈ oq) : oqLookup oq p.1 = some p.2 := by
  induction oq with
  | nil => simp at hp
  | cons e rest ih =>
    simp only [oqKeys, List.map_cons, List.nodup_cons] at hn
    rcases List.mem_cons.mp hp with hp | hp
    · rw [hp]
      simp [oqLookup]
    · have hne : ¬ e.1 = p.1 := by
        intro hc
        apply hn.1
        rw [hc]
        exact List.mem_map_of_mem (fun x => x.1) hp
      rw [oqLookup_head_eq _ _ _ hne]
      exact ih hn.2 hp

theorem insLine_perm (x : OrderLine) (l : List OrderLine) :
    List.Perm (insLine x l) (x :: l) := by
  induction l with
  | nil => simp [insLine]
  | cons y ys ih =>
    by_cases h : x.item_id ≤ y.item_id
    · simp [insLine, h]
    · simp only [insLine, if_neg h]
      exact (List.Perm.cons y ih).trans (List.Perm.swap x y ys)

theorem sortLines_perm (l : List OrderLine) : List.Perm (sortLines l) l := by
  induction l with
  | nil => simp [sortLines]
  | cons x xs ih =>
    exact (insLine_perm x (sortLines xs)).trans (List.Perm.cons x ih)

theorem insLine_sorted (x : OrderLine) (l : List OrderLine)
    (h : List.Pairwise (fun a b : OrderLine => a.item_id ≤ b.item_id) l) :
    List.Pairwise (fun a b : OrderLine => a.item_id ≤ b.item_id) (insLine x l) := by
  induction l with
  | nil => simp [insLine]
  | cons y ys ih =>
    by_cases hxy : x.item_id ≤ y.item_id
    · simp only [insLine, if_pos hxy]
      constructor
      · intro b hb
        rcases List.mem_cons.mp hb with hb | hb
        · exact hb ▸ hxy
        · exact le_trans hxy (List.rel_of_pairwise_cons h hb)
      · exact h
    · simp only [insLine, if_neg hxy]
      have hyx : y.item_id ≤ x.item_id := le_of_lt (Nat.lt_of_not_le hxy)
      constructor
      · intro b hb
        have hmem : b ∈ x :: ys := (insLine_perm x ys).mem_iff.mp hb
        rcases List.mem_cons.mp hmem with hb' | hb'
        · exact hb' ▸ hyx
        · exact List.rel_of_pairwise_cons h hb'
      · exact ih (List.pairwise_cons.mp h).2

theorem sortLines_sorted (l : List OrderLine) :
    List.Pairwise (fun a b : OrderLine => a.item_id ≤ b.item_id) (sortLines l) := by
  induction l with
  | nil => simp [sortLines]
  | cons x xs ih => exact insLine_sorted x (sortLines xs) ih

theorem sortLines_pairwise_lt (l : List OrderLine)
    (hn : (l.map (fun x => x.item_id)).Nodup) :
    List.Pairwise (fun a b : OrderLine => a.item_id < b.item_id) (sortLines l) := by
  have hperm : List.Perm (sortLines l) l := sortLines_perm l
  have hn2 : ((sortLines l).map (fun x => x.item_id)).Nodup :=
    ((hperm.map (fun x => x.item_id)).nodup_iff).mpr hn
  have hpn : List.Pairwise (fun a b : OrderLine => a.item_id ≠ b.item_id) (sortLines l) :=
    (List.pairwise_map.mp hn2)
  have hs := sortLines_sorted l
  exact (List.Pairwise.and hs hpn).imp (fun h => lt_of_le_of_ne h.1 h.2)

theorem oqv_lt_of_bounded (oq : List (Nat × Nat)) (id : Nat) (h : oqBounded oq) :
    oqv oq id < U32M := by
  induction oq with
  | nil => simp [oqv, oqLookup]; decide
  | cons e rest ih =>
    by_cases he : e.1 = id
    · have := h e (List.mem_cons_self e rest)
      simpa [oqv, oqLookup, he] using this
    · rw [show oqv (e :: rest) id = oqv rest id from by simp [oqv, oqLookup, he]]
      exact ih (fun p hp => h p (List.mem_cons_of_mem e hp))

theorem oqAdd_bounded (oq : List (Nat × Nat)) (id q : Nat) (h : oqBounded oq) :
    oqBounded (oqAdd oq id q) := by
  induction oq with
  | nil =>
    intro p hp
    simp only [oqAdd, List.mem_singleton] at hp
    rw [hp]
    exact Nat.mod_lt _ (by decide)
  | cons e rest ih =>
    intro p hp
    by_cases he : e.1 = id
    · simp only [oqAdd, if_pos he, List.mem_cons] at hp
      rcases hp with hp | hp
      · rw [hp]
        exact Nat.mod_lt _ (by decide)
      · exact h p (List.mem_cons_of_mem e hp)
    · simp only [oqAdd, if_neg he, List.mem_cons] at hp
      rcases hp with hp | hp
      · rw [hp]
        exact h e (List.mem_cons_self e rest)
      · exact ih (fun x hx => h x (List.mem_cons_of_mem e hx)) p hp

theorem applyTr_keys_nodup (tr : List (Nat × Nat)) :
    ∀ oq, (oqKeys oq).Nodup → (oqKeys (applyTr oq tr)).Nodup := by
  induction tr with
  | nil =>
    intro oq h
    exact h
  | cons e rest ih =>
    intro oq h
    exact ih _ (oqAdd_keys_nodup oq e.1 e.2 h)

theorem applyTr_bounded (tr : List (Nat × Nat)) :
    ∀ oq, oqBounded oq → oqBounded (applyTr oq tr) := by
  induction tr with
  | nil =>
    intro oq h
    exact h
  | cons e rest ih =>
    intro oq h
    exact ih _ (oqAdd_bounded oq e.1 e.2 h)

theorem mem_applyTr_keys (tr : List (Nat × Nat)) :
    ∀ oq id, id ∈ oqKeys (applyTr oq tr) ↔
      id ∈ oqKeys oq ∨ id ∈ tr.map (fun p => p.1) := by
  induction tr with
  | nil =>
    intro oq id
    simp [applyTr]
  | cons e rest ih =>
    intro oq id
    have hk : id ∈ oqKeys (oqAdd oq e.1 e.2) ↔ (id ∈ oqKeys oq ∨ id = e.1) := by
      by_cases hm : e.1 ∈ oqKeys oq
      · rw [oqKeys_oqAdd_mem _ _ _ hm]
        constructor
        · exact Or.inl
        · rintro (h | h)
          · exact h
          · exact h ▸ hm
      · rw [oqKeys_oqAdd_not_mem _ _ _ hm]
        simp [List.mem_append]
    show id ∈ oqKeys (applyTr (oqAdd oq e.1 e.2) rest) ↔ _
    rw [ih, hk]
    simp only [List.map_cons, List.mem_cons]
    tauto

theorem oqv_applyTr (tr : List (Nat × Nat)) :
    ∀ oq id, oqBounded oq →
      oqv (applyTr oq tr) id =
        (oqv oq id + ((tr.filter (fun p => p.1 = id)).map (fun p => p.2)).sum) % U32M := by
  induction tr with
  | nil =>
    intro oq id hb
    simp only [applyTr, List.filter_nil, List.map_nil, List.sum_nil, Nat.add_zero]
    exact (Nat.mod_eq_of_lt (oqv_lt_of_bounded oq id hb)).symm
  | cons e rest ih =>
    intro oq id hb
    show oqv (applyTr (oqAdd oq e.1 e.2) rest) id = _
    rw [ih _ id (oqAdd_bounded oq e.1 e.2 hb)]
    by_cases he : e.1 = id
    · rw [show oqv (oqAdd oq e.1 e.2) id = (oqv oq id + e.2) % U32M from by
        rw [← he]; exact oqv_oqAdd_self oq e.1 e.2]
      rw [Nat.mod_add_mod]
      have hf : (e :: rest).filter (fun p => p.1 = id) =
          e :: rest.filter (fun p => p.1 = id) := by
        simp [List.filter_cons, he]
      rw [hf, List.map_cons, List.sum_cons, Nat.add_assoc]
    · rw [oqv_oqAdd_ne oq e.1 id e.2 (fun hc => he hc.symm)]
      have hf : (e :: rest).filter (fun p => p.1 = id) =
          rest.filter (fun p => p.1 = id) := by
        simp [List.filter_cons, he]
      rw [hf]

theorem buildOrderT_finalized_shape (script : List Cmd) :
    ∀ (s : Store) (oq : List (Nat × Nat)) (lines : List OrderLine) (s' : Store)
      (tr : List (Nat × Nat)),
      buildOrderT s oq script = (BuildResult.finalized lines, s', tr) →
      lines = sortLines ((applyTr oq tr).map (fun e => ⟨e.1, e.2⟩)) ∧
      applyTr oq tr ≠ [] := by
  induction script with
  | nil =>
    intro s oq lines s' tr h
    simp only [buildOrderT] at h
    exact absurd (congrArg Prod.fst h) (by simp)
  | cons c rest ih =>
    intro s oq lines s' tr h
    cases c with
    | finish =>
      by_cases he : oq.isEmpty = true
      · simp only [buildOrderT, if_pos he] at h
        exact ih s oq lines s' tr h
      · simp only [buildOrderT, if_neg he] at h
        have h1 := congrArg Prod.fst h
        have h3 := congrArg (fun p : BuildResult × Store × List (Nat × Nat) => p.2.2) h
        dsimp only at h1 h3
        have hlines : lines = sortLines (oq.map (fun e => ⟨e.1, e.2⟩)) :=
          (BuildResult.finalized.inj h1).symm
        rw [← h3]
        constructor
        · exact hlines
        · intro hc
          have hoq : oq = [] := hc
          rw [hoq] at he
          exact he rfl
    | quit =>
      simp only [buildOrderT] at h
      exact absurd (congrArg Prod.fst h) (by simp)
    | other =>
      simp only [buildOrderT] at h
      exact ih s oq lines s' tr h
    | sel row qty =>
      simp only [buildOrderT] at h
      by_cases hr : row < s.inventory_ids_sorted.length
      · rw [dif_pos hr] at h
        cases ha : (s.adjust_stock (s.inventory_ids_sorted.get ⟨row, hr⟩)
            (i32neg (i32_of_u32 qty))).1 with
        | error msg =>
          rw [ha] at h
          dsimp only at h
          exact ih _ _ _ _ _ h
        | ok v =>
          rw [ha] at h
          dsimp only at h
          have h1 := congrArg Prod.fst h
          have h2 := congrArg (fun p : BuildResult × Store × List (Nat × Nat) => p.2.1) h
          have h3 := congrArg (fun p : BuildResult × Store × List (Nat × Nat) => p.2.2) h
          dsimp only at h1 h2 h3
          obtain ⟨hl, hne⟩ := ih
            (s.adjust_stock (s.inventory_ids_sorted.get ⟨row, hr⟩) (i32neg (i32_of_u32 qty))).2
            (oqAdd oq (s.inventory_ids_sorted.get ⟨row, hr⟩) qty) lines s'
            ((buildOrderT
              (s.adjust_stock (s.inventory_ids_sorted.get ⟨row, hr⟩) (i32neg (i32_of_u32 qty))).2
              (oqAdd oq (s.inventory_ids_sorted.get ⟨row, hr⟩) qty) rest).2.2)
            (by rw [← h1, ← h2])
          rw [← h3]
          exact ⟨hl, hne⟩
      · rw [dif_neg hr] at h
        exact ih s oq lines s' tr h

/-- C5 counterexample: entering quantity 0 for a row is accepted
(adjust_stock(id, -0) succeeds), creates a reservation-map entry of 0, and
finish then emits an OrderLine with qty = 0 — the finalized line set is not
all-positive. -/
theorem build_order_zero_qty_line_cex :
    (buildOrderT cS1 [] [Cmd.sel 0 0, Cmd.finish]).1 =
      BuildResult.finalized [⟨1, 0⟩] ∧ ¬ 0 < (0 : Nat) :=
  ⟨by rfl, by decide⟩

/-- C5 (amended): whenever the order builder terminates Finalized, the
returned line set is non-empty (finish on an empty reservation map re-loops),
sorted strictly ascending by item id, and contains exactly one line per
distinct successfully-selected item, each line's quantity being the sum of
that item's selected quantities reduced mod 2^32; every line's quantity is
positive provided each selection's quantity is positive and each item's
cumulative selected quantity fits in u32. -/
theorem build_order_finalized_lines_spec (s : Store) (script : List Cmd)
    (lines : List OrderLine) (s' : Store) (tr : List (Nat × Nat))
    (h : buildOrderT s [] script = (BuildResult.finalized lines, s', tr)) :
    lines ≠ [] ∧
    List.Pairwise (fun a b : OrderLine => a.item_id < b.item_id) lines ∧
    (∀ id, (∃ l ∈ lines, l.item_id = id) ↔ id ∈ tr.map (fun p => p.1)) ∧
    (∀ l ∈ lines,
      l.qty = ((tr.filter (fun p => p.1 = l.item_id)).map (fun p => p.2)).sum % U32M) ∧
    ((∀ p ∈ tr, 0 < p.2) →
      (∀ p ∈ tr, ((tr.filter (fun x => x.1 = p.1)).map (fun x => x.2)).sum < U32M) →
      ∀ l ∈ lines, 0 < l.qty) := by
  obtain ⟨hlines, hne⟩ := buildOrderT_finalized_shape script s [] lines s' tr h
  have hnodK : (oqKeys (applyTr [] tr)).Nodup :=
    applyTr_keys_nodup tr [] (by simp [oqKeys])
  have hval : ∀ p ∈ applyTr [] tr,
      p.2 = ((tr.filter (fun x => x.1 = p.1)).map (fun x => x.2)).sum % U32M := by
    intro p hp
    have hl := oqLookup_of_mem_nodup _ p hnodK hp
    have hv : oqv (applyTr [] tr) p.1 = p.2 := by simp [oqv, hl]
    rw [← hv, oqv_applyTr tr [] p.1 (by intro x hx; simp at hx)]
    simp [oqv, oqLookup]
  have hkeys : ∀ id, id ∈ oqKeys (applyTr [] tr) ↔ id ∈ tr.map (fun p => p.1) := by
    intro id
    rw [mem_applyTr_keys tr [] id]
    simp [oqKeys]
  have hmem : ∀ l, l ∈ lines ↔
      l ∈ (applyTr [] tr).map (fun e => (⟨e.1, e.2⟩ : OrderLine)) := by
    intro l
    rw [hlines]
    exact (sortLines_perm _).mem_iff
  refine ⟨?_, ?_, ?_, ?_, ?_⟩
  · intro hc
    rw [hc] at hlines
    have hlen := congrArg List.length hlines
    rw [(sortLines_perm _).length_eq, List.length_map] at hlen
    cases hx : applyTr [] tr with
    | nil => exact hne hx
    | cons a b =>
      rw [hx] at hlen
      simp at hlen
  · rw [hlines]
    apply sortLines_pairwise_lt
    rw [List.map_map]
    exact hnodK
  · intro id
    constructor
    · rintro ⟨l, hlm, hlid⟩
      obtain ⟨e, he, hle⟩ := List.mem_map.mp ((hmem l).mp hlm)
      rw [← hkeys, ← hlid, ← hle]
      exact List.mem_map_of_mem (fun x => x.1) he
    · intro hid
      rw [← hkeys] at hid
      obtain ⟨e, he, hei⟩ := List.mem_map.mp hid
      refine ⟨⟨e.1, e.2⟩, (hmem _).mpr (List.mem_map_of_mem _ he), hei⟩
  · intro l hl
    obtain ⟨e, he, hle⟩ := List.mem_map.mp ((hmem l).mp hl)
    rw [← hle]
    exact hval e he
  · intro hpos hbound l hl
    obtain ⟨e, he, hle⟩ := List.mem_map.mp ((hmem l).mp hl)
    have hid : l.item_id ∈ tr.map (fun p => p.1) := by
      rw [← hkeys, ← hle]
      exact List.mem_map_of_mem (fun x => x.1) he
    obtain ⟨p, hp, hpid⟩ := List.mem_map.mp hid
    have hsb := hbound p hp
    rw [hpid] at hsb
    have hlq : l.qty =
        ((tr.filter (fun x => x.1 = l.item_id)).map (fun x => x.2)).sum % U32M := by
      rw [← hle]
      exact hval e he
    rw [hlq, Nat.mod_eq_of_lt hsb]
    have hpin : p.2 ∈ (tr.filter (fun x => x.1 = l.item_id)).map (fun x => x.2) := by
      apply List.mem_map_of_mem
      rw [List.mem_filter]
      exact ⟨hp, by simp [hpid]⟩
    exact lt_of_lt_of_le (hpos p hp)
      (List.single_le_sum (fun x _ => Nat.zero_le x) _ hpin)

/-- Witness for C5: selecting item row 0 twice (qty 2 then 1) and finishing
yields the single line (1, 3), sorted, non-empty, positive. -/
theorem build_order_finalized_lines_spec_witness :
    ([⟨1, 3⟩] : List OrderLine) ≠ [] ∧
    List.Pairwise (fun a b : OrderLine => a.item_id < b.item_id) ([⟨1, 3⟩] : List OrderLine) ∧
    (∀ id, (∃ l ∈ ([⟨1, 3⟩] : List OrderLine), l.item_id = id) ↔
      id ∈ ([(1, 2), (1, 1)] : List (Nat × Nat)).map (fun p => p.1)) ∧
    (∀ l ∈ ([⟨1, 3⟩] : List OrderLine),
      l.qty = ((([(1, 2), (1, 1)] : List (Nat × Nat)).filter
        (fun p => p.1 = l.item_id)).map (fun p => p.2)).sum % U32M) ∧
    ((∀ p ∈ ([(1, 2), (1, 1)] : List (Nat × Nat)), 0 < p.2) →
      (∀ p ∈ ([(1, 2), (1, 1)] : List (Nat × Nat)),
        ((([(1, 2), (1, 1)] : List (Nat × Nat)).filter
          (fun x => x.1 = p.1)).map (fun x => x.2)).sum < U32M) →
      ∀ l ∈ ([⟨1, 3⟩] : List OrderLine), 0 < l.qty) :=
  build_order_finalized_lines_spec cS1 [Cmd.sel 0 2, Cmd.sel 0 1, Cmd.finish]
    [⟨1, 3⟩] ⟨[(1, cItem1, 2)], [], 2, 1⟩ [(1, 2), (1, 1)] (by rfl)

theorem invLookup_mem (inv : InvMap) (id : Nat) (v : Item × Nat)
    (h : invLookup inv id = some v) : (id, v) ∈ inv := by
  induction inv with
  | nil => simp [invLookup] at h
  | cons e rest ih =>
    by_cases he : e.1 = id
    · simp only [invLookup, if_pos he] at h
      have h2 := Option.some.inj h
      have he2 : e = (id, v) := by
        rw [Prod.ext_iff]
        exact ⟨he, h2⟩
      rw [← he2]
      exact List.mem_cons_self e rest
    · simp only [invLookup, if_neg he] at h
      exact List.mem_cons_of_mem e (ih h)

theorem mem_oqKeys_oqAdd_self (oq : List (Nat × Nat)) (id q : Nat) :
    id ∈ oqKeys (oqAdd oq id q) := by
  by_cases hm : id ∈ oqKeys oq
  · rw [oqKeys_oqAdd_mem oq id q hm]
    exact hm
  · rw [oqKeys_oqAdd_not_mem oq id q hm]
    simp

theorem oqKeys_subset_oqAdd (oq : List (Nat × Nat)) (id q a : Nat) (h : a ∈ oqKeys oq) :
    a ∈ oqKeys (oqAdd oq id q) := by
  by_cases hm : id ∈ oqKeys oq
  · rw [oqKeys_oqAdd_mem oq id q hm]
    exact h
  · rw [oqKeys_oqAdd_not_mem oq id q hm]
    exact List.mem_append_left _ h

theorem rollback_restores (s0 : Store) (hwf : Store.WF s0) :
    ∀ (oq : List (Nat × Nat)) (s : Store),
      invShape s.inventory = invShape s0.inventory →
      (oqKeys oq).Nodup →
      (∀ id, id ∉ oqKeys oq → invLookup s.inventory id = invLookup s0.inventory id) →
      (∀ p ∈ oq, ∃ it q0, invLookup s0.inventory p.1 = some (it, q0) ∧ p.2 ≤ q0 ∧
        p.2 < I32H ∧ invLookup s.inventory p.1 = some (it, q0 - p.2)) →
      (∀ id, invLookup (rollback s oq).inventory id = invLookup s0.inventory id) ∧
      invShape (rollback s oq).inventory = invShape s0.inventory := by
  intro oq
  induction oq with
  | nil =>
    intro s h1 h2 h3 h4
    exact ⟨fun id => h3 id (by simp [oqKeys]), h1⟩
  | cons e rest ih =>
    intro s h1 h2 h3 h4
    obtain ⟨it, q0, hs0l, hle, hlt, hsl⟩ := h4 e (List.mem_cons_self e rest)
    have hq0 : q0 < U32M := hwf.2 _ (invLookup_mem _ _ _ hs0l)
    simp only [oqKeys, List.map_cons, List.nodup_cons] at h2
    have hsum : ((q0 - e.2 : Nat) : Int) + (e.2 : Int) = (q0 : Int) := by
      rw [Nat.cast_sub hle]
      ring
    have hge : 0 ≤ ((q0 - e.2 : Nat) : Int) + (e.2 : Int) := by
      rw [hsum]
      exact Int.natCast_nonneg q0
    have hok := adjust_stock_ok_eq s e.1 (e.2 : Int) it (q0 - e.2) hsl hge
    have hstored : (((q0 - e.2 : Nat) : Int) + (e.2 : Int)).toNat % U32M = q0 := by
      rw [hsum, Int.toNat_natCast]
      exact Nat.mod_eq_of_lt hq0
    rw [hstored] at hok
    have hcast : i32_of_u32 e.2 = (e.2 : Int) := i32_of_u32_small e.2 hlt
    simp only [rollback, hcast, hok]
    apply ih
    · rw [show ({ s with inventory := invSetQty s.inventory e.1 q0 } : Store).inventory =
        invSetQty s.inventory e.1 q0 from rfl, invShape_invSetQty]
      exact h1
    · exact h2.2
    · intro id hid
      by_cases hide : id = e.1
      · rw [hide]
        rw [show ({ s with inventory := invSetQty s.inventory e.1 q0 } : Store).inventory =
          invSetQty s.inventory e.1 q0 from rfl]
        rw [invLookup_invSetQty_self s.inventory e.1 it (q0 - e.2) q0 hsl]
        exact hs0l.symm
      · rw [show ({ s with inventory := invSetQty s.inventory e.1 q0 } : Store).inventory =
          invSetQty s.inventory e.1 q0 from rfl]
        rw [invLookup_invSetQty_ne s.inventory e.1 id q0 hide]
        apply h3
        intro hc
        rcases List.mem_cons.mp (by exact hc) with hc' | hc'
        · exact hide hc'
        · exact hid hc'
    · intro p hp
      obtain ⟨it', q0', ha, hb, hc, hd⟩ := h4 p (List.mem_cons_of_mem e hp)
      refine ⟨it', q0', ha, hb, hc, ?_⟩
      rw [show ({ s with inventory := invSetQty s.inventory e.1 q0 } : Store).inventory =
        invSetQty s.inventory e.1 q0 from rfl]
      rw [invLookup_invSetQty_ne s.inventory e.1 p.1 q0 ?_]
      · exact hd
      · intro hc'
        apply h2.1
        rw [← hc']
        exact List.mem_map_of_mem (fun x => x.1) hp


theorem oqLookup_isSome_iff_mem (oq : List (Nat × Nat)) (id : Nat) :
    (oqLookup oq id).isSome = true ↔ id ∈ oqKeys oq := by
  induction oq with
  | nil => simp [oqLookup, oqKeys]
  | cons e rest ih =>
    by_cases he : e.1 = id
    · simp [oqLookup, he, oqKeys]
    · simp only [oqLookup, if_neg he, oqKeys, List.map_cons, List.mem_cons]
      rw [ih]
      constructor
      · exact fun h => Or.inr h
      · rintro (h | h)
        · exact absurd h.symm he
        · exact h

theorem oqv_eq_zero_of_not_mem (oq : List (Nat × Nat)) (id : Nat) (h : id ∉ oqKeys oq) :
    oqv oq id = 0 := by
  rcases hx : oqLookup oq id with _ | v
  · simp [oqv, hx]
  · exfalso
    apply h
    rw [← oqLookup_isSome_iff_mem, hx]
    rfl

theorem build_cancel_aux (s0 : Store) (hwf : Store.WF s0) (script : List Cmd) :
    ∀ (s : Store) (oq : List (Nat × Nat)),
      noTerm script = true →
      invShape s.inventory = invShape s0.inventory →
      (oqKeys oq).Nodup →
      (∀ id, id ∉ oqKeys oq → invLookup s.inventory id = invLookup s0.inventory id) →
      (∀ p ∈ oq, ∃ it q0, invLookup s0.inventory p.1 = some (it, q0) ∧ p.2 ≤ q0 ∧
        invLookup s.inventory p.1 = some (it, q0 - p.2)) →
      (∀ p ∈ oq, p.1 ∈ s0.inventory_ids_sorted) →
      (∀ id ∈ s0.inventory_ids_sorted,
        oqv oq id + selTotal s0.inventory_ids_sorted script id ≤ I32H - 1) →
      (buildOrderT s oq (script ++ [Cmd.quit])).1 = BuildResult.cancelled ∧
      (∀ id, invLookup (buildOrderT s oq (script ++ [Cmd.quit])).2.1.inventory id =
        invLookup s0.inventory id) ∧
      invShape (buildOrderT s oq (script ++ [Cmd.quit])).2.1.inventory =
        invShape s0.inventory := by
  induction script with
  | nil =>
    intro s oq hnt h1 h2 h3 h4 h5 h6
    have h4' : ∀ p ∈ oq, ∃ it q0, invLookup s0.inventory p.1 = some (it, q0) ∧ p.2 ≤ q0 ∧
        p.2 < I32H ∧ invLookup s.inventory p.1 = some (it, q0 - p.2) := by
      intro p hp
      obtain ⟨it, q0, ha, hb, hc⟩ := h4 p hp
      refine ⟨it, q0, ha, hb, ?_, hc⟩
      have h6p := h6 p.1 (h5 p hp)
      have hov : oqv oq p.1 = p.2 := by
        simp [oqv, oqLookup_of_mem_nodup oq p h2 hp]
      rw [hov] at h6p
      simp only [selTotal] at h6p
      unfold I32H at h6p ⊢
      omega
    obtain ⟨hr1, hr2⟩ := rollback_restores s0 hwf oq s h1 h2 h3 h4'
    exact ⟨rfl, hr1, hr2⟩
  | cons c rest ih =>
    intro s oq hnt h1 h2 h3 h4 h5 h6
    cases c with
    | finish => simp [noTerm] at hnt
    | quit => simp [noTerm] at hnt
    | other =>
      have hnt' : noTerm rest = true := by
        simp only [noTerm, List.all_cons, Bool.and_eq_true] at hnt
        exact hnt.2
      have h6' : ∀ id ∈ s0.inventory_ids_sorted,
          oqv oq id + selTotal s0.inventory_ids_sorted rest id ≤ I32H - 1 := by
        intro id hid
        have hx := h6 id hid
        simp only [selTotal] at hx
        exact hx
      exact ih s oq hnt' h1 h2 h3 h4 h5 h6'
    | sel row qty =>
      have hnt' : noTerm rest = true := by
        simp only [noTerm, List.all_cons, Bool.and_eq_true] at hnt
        exact hnt.2
      have hids : s.inventory_ids_sorted = s0.inventory_ids_sorted := by
        unfold Store.inventory_ids_sorted
        rw [invKeys_of_invShape _ _ h1]
      have h6g : ∀ id ∈ s0.inventory_ids_sorted,
          oqv oq id + selTotal s0.inventory_ids_sorted rest id ≤ I32H - 1 := by
        intro id hid
        have hx := h6 id hid
        simp only [selTotal] at hx
        omega
      simp only [List.cons_append, buildOrderT]
      by_cases hr : row < s.inventory_ids_sorted.length
      · rw [dif_pos hr]
        have hr0 : row < s0.inventory_ids_sorted.length := by
          rw [← hids]
          exact hr
        have hget := List.get_of_eq hids ⟨row, hr⟩
        generalize hgv : s.inventory_ids_sorted.get ⟨row, hr⟩ = idv
        rw [hgv] at hget
        have hidv : idv = s0.inventory_ids_sorted.get ⟨row, hr0⟩ := hget
        have hmemids : idv ∈ s0.inventory_ids_sorted := by
          rw [hidv]
          exact List.get_mem _ _ hr0
        have h6i := h6 idv hmemids
        have hst : selTotal s0.inventory_ids_sorted (Cmd.sel row qty :: rest) idv =
            qty + selTotal s0.inventory_ids_sorted rest idv := by
          simp only [selTotal]
          rw [dif_pos hr0, if_pos hidv.symm]
        rw [hst] at h6i
        have hqty : qty < I32H := by
          unfold I32H at h6i ⊢
          omega
        rw [i32neg_small qty hqty]
        have hinv : ∃ it q0, invLookup s0.inventory idv = some (it, q0) ∧
            oqv oq idv ≤ q0 ∧
            invLookup s.inventory idv = some (it, q0 - oqv oq idv) := by
          by_cases hk : idv ∈ oqKeys oq
          · obtain ⟨p, hp, hpk⟩ := List.mem_map.mp hk
            obtain ⟨it, q0, ha, hb, hc⟩ := h4 p hp
            have hov : oqv oq p.1 = p.2 := by
              simp [oqv, oqLookup_of_mem_nodup oq p h2 hp]
            rw [← hpk, hov]
            exact ⟨it, q0, ha, hb, hc⟩
          · have hz : oqv oq idv = 0 := oqv_eq_zero_of_not_mem oq idv hk
            have hkeys0 : idv ∈ invKeys s0.inventory := (sortNat_perm _).mem_iff.mp hmemids
            have hsome : (invLookup s0.inventory idv).isSome = true :=
              (invLookup_isSome_iff_mem s0.inventory idv).mpr hkeys0
            rcases hx : invLookup s0.inventory idv with _ | ⟨it, q0⟩
            · rw [hx] at hsome
              simp at hsome
            · refine ⟨it, q0, rfl, by rw [hz]; exact Nat.zero_le q0, ?_⟩
              rw [hz, Nat.sub_zero, h3 idv hk]
              exact hx
        obtain ⟨it, q0, hs0l, hc0le, hsl⟩ := hinv
        have hq0 : q0 < U32M := hwf.2 _ (invLookup_mem _ _ _ hs0l)
        by_cases hfail : ((q0 - oqv oq idv : Nat) : Int) + -(qty : Int) < 0
        · rw [adjust_stock_insufficient_eq s idv (-(qty : Int)) it (q0 - oqv oq idv) hsl hfail]
          dsimp only
          exact ih s oq hnt' h1 h2 h3 h4 h5 h6g
        · push_neg at hfail
          rw [adjust_stock_ok_eq s idv (-(qty : Int)) it (q0 - oqv oq idv) hsl hfail]
          dsimp only
          have hqle : qty ≤ q0 - oqv oq idv := by omega
          have hv : (((q0 - oqv oq idv : Nat) : Int) + -(qty : Int)).toNat % U32M =
              q0 - oqv oq idv - qty := by
            have hx : (((q0 - oqv oq idv : Nat) : Int) + -(qty : Int)).toNat =
                q0 - oqv oq idv - qty := by omega
            rw [hx]
            apply Nat.mod_eq_of_lt
            unfold U32M at hq0 ⊢
            omega
          rw [hv]
          have hc0b : oqv oq idv + qty ≤ I32H - 1 := by omega
          have hmodval : (oqv oq idv + qty) % U32M = oqv oq idv + qty := by
            apply Nat.mod_eq_of_lt
            unfold I32H at hc0b
            unfold U32M
            omega
          have hoqv' : oqv (oqAdd oq idv qty) idv = oqv oq idv + qty := by
            rw [oqv_oqAdd_self]
            exact hmodval
          apply ih
          · exact hnt'
          · dsimp only
            rw [invShape_invSetQty]
            exact h1
          · exact oqAdd_keys_nodup oq idv qty h2
          · intro id hid
            have hneq : id ≠ idv := fun hc => hid (hc ▸ mem_oqKeys_oqAdd_self oq idv qty)
            have hnotin : id ∉ oqKeys oq := fun hc => hid (oqKeys_subset_oqAdd oq idv qty id hc)
            dsimp only
            rw [invLookup_invSetQty_ne s.inventory idv id _ hneq]
            exact h3 id hnotin
          · intro p hp
            rcases mem_oqAdd oq idv qty p h2 hp with ⟨hpk, hpv⟩ | ⟨hpo, hpk⟩
            · refine ⟨it, q0, by rw [hpk]; exact hs0l, ?_, ?_⟩
              · rw [hpv, hmodval]
                omega
              · dsimp only
                rw [hpk, invLookup_invSetQty_self s.inventory idv it (q0 - oqv oq idv) _ hsl]
                rw [hpv, hmodval, Nat.sub_sub]
            · obtain ⟨it', q0', ha, hb, hc⟩ := h4 p hpo
              refine ⟨it', q0', ha, hb, ?_⟩
              dsimp only
              rw [invLookup_invSetQty_ne s.inventory idv p.1 _ hpk]
              exact hc
          · intro p hp
            rcases mem_oqAdd oq idv qty p h2 hp with ⟨hpk, _⟩ | ⟨hpo, _⟩
            · rw [hpk]
              exact hmemids
            · exact h5 p hpo
          · intro id hid
            by_cases hide : id = idv
            · rw [hide, hoqv']
              omega
            · rw [oqv_oqAdd_ne oq idv id qty hide]
              exact h6g id hid
      · rw [dif_neg hr]
        exact ih s oq hnt' h1 h2 h3 h4 h5 h6g

/-- C3 counterexample: a single successful selection of quantity 3221225472
(= 3 * 2^30) followed by quit does not restore the starting quantity.  The
delta passed to adjust_stock is `-(qty as i32)` = +2^30 (the bit cast flips
the sign), so the "reservation" increases stock from 4294967295 to
(4294967295 + 2^30) mod 2^32 = 1073741823; on quit the rollback applies
`qty as i32` = -2^30, which now fails the InsufficientStock guard and is
ignored, leaving 1073741823 ≠ 4294967295.  Every step here is identical under
debug Rust: `as` casts wrap by definition, the negation does not hit i32::MIN,
and no checked add overflows. -/
theorem build_order_cancel_cex :
    (buildOrderT cS3 [] [Cmd.sel 0 3221225472, Cmd.quit]).1 = BuildResult.cancelled ∧
    (buildOrderT cS3 [] [Cmd.sel 0 3221225472, Cmd.quit]).2.2 = [(1, 3221225472)] ∧
    invLookup (buildOrderT cS3 [] [Cmd.sel 0 3221225472, Cmd.quit]).2.1.inventory 1 =
      some (cItem1, 1073741823) ∧
    invLookup cS3.inventory 1 = some (cItem1, 4294967295) ∧
    (1073741823 : Nat) ≠ 4294967295 :=
  ⟨by rfl, by rfl, by rfl, by rfl, by decide⟩

/-- C3 (amended): for every well-formed store and every session consisting of
selections (successful or not) and invalid inputs followed by quit, the
builder cancels and every item's on-hand quantity — in fact the whole
inventory — equals its pre-session value, provided each item's cumulative
entered quantity across the session's selections is at most i32::MAX
(2^31 - 1), so that no quantity cast wraps. -/
theorem build_order_cancel_roundtrip (s0 : Store) (script : List Cmd)
    (hwf : Store.WF s0) (hnt : noTerm script = true)
    (hbudget : ∀ id ∈ s0.inventory_ids_sorted,
      selTotal s0.inventory_ids_sorted script id ≤ I32H - 1) :
    (buildOrderT s0 [] (script ++ [Cmd.quit])).1 = BuildResult.cancelled ∧
    (buildOrderT s0 [] (script ++ [Cmd.quit])).2.1.inventory = s0.inventory := by
  obtain ⟨hc, hl, hs⟩ := build_cancel_aux s0 hwf script s0 [] hnt rfl (by simp [oqKeys])
    (fun id _ => rfl) (by intro p hp; simp at hp) (by intro p hp; simp at hp)
    (by intro id hid; have hx := hbudget id hid; simpa [oqv, oqLookup] using hx)
  exact ⟨hc, inv_eq_of_shape_lookup _ _ hs hwf.1 hl⟩

/-- Witness for C3: reserve 2 of item 1, an invalid input, reserve 1 more,
then quit — the inventory returns exactly to its starting state. -/
theorem build_order_cancel_roundtrip_witness :
    (buildOrderT cS1 [] ([Cmd.sel 0 2, Cmd.other, Cmd.sel 0 1] ++ [Cmd.quit])).1 =
      BuildResult.cancelled ∧
    (buildOrderT cS1 [] ([Cmd.sel 0 2, Cmd.other, Cmd.sel 0 1] ++ [Cmd.quit])).2.1.inventory =
      cS1.inventory :=
  build_order_cancel_roundtrip cS1 [Cmd.sel 0 2, Cmd.other, Cmd.sel 0 1]
    ⟨by decide, by decide⟩ (by decide) (by decide)
